import Mathlib

/-!
# gordle: the guess-scoring routine and the session state of `main.go`

A shallow embedding of `game.guess` (main.go, lines 52-127) together with the
helpers it calls, followed by theorems about it.

Conventions of the embedding.

* A Go `string` is its sequence of bytes, a `List Nat` whose entries are below 256.
* `for _, r := range s` walks the runes of `s` (UTF-8 decoding, an invalid byte
  yields U+FFFD and advances by one byte); `rangeRunes` models it.
* A run-time panic (index out of range) is the result `none`.
* `wordsToGuess` and `allWords` are declared in a file of the repository that is
  not part of the sources at hand; they are taken as parameters (`WordLists`).
-/

namespace Gordle

/-! ## Data model (main.go, lines 18-50) -/

/-- The type `letterState` (a `uint8`) with its four constants, in declaration order. -/
inductive letterState where
  | notGuessed
  | found
  | foundPosition
  | notInWord
  deriving DecidableEq, Repr

/-- The numeric value that `iota` gives each constant. -/
def letterState.val : letterState → Nat
  | .notGuessed => 0
  | .found => 1
  | .foundPosition => 2
  | .notInWord => 3

/-- The struct `guessLetter`; `letter` is a Go string. -/
structure guessLetter where
  letter : List Nat
  state : letterState
  deriving DecidableEq, Repr

/-- The struct `game`. The field `err` holds the bytes of the error message, `none` for `nil`. -/
structure game where
  word : List Nat
  guesses : List (List guessLetter)
  letterStates : Fin 26 → letterState
  done : Bool
  won : Bool
  err : Option (List Nat)

/-- The two word tables of the repository, taken as parameters. -/
structure WordLists where
  wordsToGuess : List (List Nat)
  allWords : List (List Nat)

/-- The function `NewGame`, with the word that `getWord()` drew as its argument. -/
def NewGame (word : List Nat) : game :=
  { word := word
    guesses := []
    letterStates := fun _ => letterState.notGuessed
    done := false
    won := false
    err := none }

/-! ## Go primitives used by `guess` -/

/-- The bytes of an ASCII string literal, to write words readably. -/
def bytes (s : String) : List Nat := s.toList.map Char.toNat

/-- Lower bound of the second byte accepted after the leading byte `p0` (package utf8). -/
def acceptLo (p0 : Nat) : Nat :=
  if p0 = 0xE0 then 0xA0 else if p0 = 0xF0 then 0x90 else 0x80

/-- Upper bound of the second byte accepted after the leading byte `p0` (package utf8). -/
def acceptHi (p0 : Nat) : Nat :=
  if p0 = 0xED then 0x9F else if p0 = 0xF4 then 0x8F else 0xBF

/-- Whether `b` is a UTF-8 continuation byte. -/
def isCont (b : Nat) : Bool := decide (0x80 ≤ b) && decide (b ≤ 0xBF)

/-- The rune that starts at the head of a non-empty byte sequence and the number of
bytes it takes; an invalid encoding gives U+FFFD and width 1. -/
def decodeRune : List Nat → Nat × Nat
  | [] => (0xFFFD, 0)
  | p0 :: rest =>
    if p0 < 0x80 then (p0, 1)
    else if p0 < 0xC2 then (0xFFFD, 1)
    else if p0 < 0xE0 then
      match rest with
      | b1 :: _ =>
        if acceptLo p0 ≤ b1 ∧ b1 ≤ acceptHi p0 then ((p0 % 0x20) * 0x40 + b1 % 0x40, 2)
        else (0xFFFD, 1)
      | _ => (0xFFFD, 1)
    else if p0 < 0xF0 then
      match rest with
      | b1 :: b2 :: _ =>
        if acceptLo p0 ≤ b1 ∧ b1 ≤ acceptHi p0 ∧ isCont b2 = true then
          ((p0 % 0x10) * 0x1000 + (b1 % 0x40) * 0x40 + b2 % 0x40, 3)
        else (0xFFFD, 1)
      | _ => (0xFFFD, 1)
    else if p0 < 0xF5 then
      match rest with
      | b1 :: b2 :: b3 :: _ =>
        if acceptLo p0 ≤ b1 ∧ b1 ≤ acceptHi p0 ∧ isCont b2 = true ∧ isCont b3 = true then
          ((p0 % 0x08) * 0x40000 + (b1 % 0x40) * 0x1000 + (b2 % 0x40) * 0x40 + b3 % 0x40, 4)
        else (0xFFFD, 1)
      | _ => (0xFFFD, 1)
    else (0xFFFD, 1)

/-- The runes visited by `for _, r := range s`; the first argument counts the bytes
still to skip because they belong to the rune decoded last. -/
def rangeRunes : Nat → List Nat → List Nat
  | _, [] => []
  | 0, p0 :: rest => (decodeRune (p0 :: rest)).1 :: rangeRunes ((decodeRune (p0 :: rest)).2 - 1) rest
  | k + 1, _ :: rest => rangeRunes k rest

/-- The conversion `string(b)` of a byte: the UTF-8 encoding of the rune `b`. -/
def stringOfByte (b : Nat) : List Nat :=
  if b < 0x80 then [b] else [0xC0 + b / 0x40, 0x80 + b % 0x40]

/-- Whether `sub` is a leading segment of `s` (`strings.HasPrefix`). -/
def startsWith : List Nat → List Nat → Bool
  | _, [] => true
  | [], _ :: _ => false
  | a :: s, b :: sub => decide (a = b) && startsWith s sub

/-- The function `strings.Contains`. -/
def contains : List Nat → List Nat → Bool
  | [], sub => startsWith [] sub
  | a :: s, sub => startsWith (a :: s) sub || contains s sub

/-- The byte subtraction `b - 'a'`, which wraps around modulo 256. -/
def letterIndex (b : Nat) : Nat := (b + 256 - 97) % 256

/-! ## The map `letterCounts` (main.go, lines 67-75) -/

/-- The type `map[byte]int`: `none` is an absent key. -/
abbrev CountMap := Nat → Option Int

/-- Reading `letterCounts[b]`: an absent key reads as 0. -/
def CountMap.get (m : CountMap) (b : Nat) : Int := (m b).getD 0

/-- Writing `letterCounts[b] = v`. -/
def CountMap.put (m : CountMap) (b : Nat) (v : Int) : CountMap :=
  fun k => if k = b then some v else m k

/-- The loop of lines 68-75 over the runes of the target, each cut down to a byte. -/
def countLetters : List Nat → CountMap → CountMap
  | [], m => m
  | r :: rs, m =>
    let b := r % 256
    match m b with
    | some count => countLetters rs (m.put b (count + 1))
    | none => countLetters rs (m.put b 1)

/-! ## The two passes of `guess` (main.go, lines 77-118) -/

/-- The local variables that the two loops of `guess` update, with the letter table. -/
structure Scratch where
  newGuess : List guessLetter
  letterCounts : CountMap
  letterStates : Fin 26 → letterState

/-- Lines 86-89 and 114-117: raise the table entry of byte `b` to `ls` when `ls` is
numerically greater; `none` when `b - 'a'` is not an index of the table. -/
def raiseState (states : Fin 26 → letterState) (b : Nat) (ls : letterState) :
    Option (Fin 26 → letterState) :=
  if h : letterIndex b < 26 then
    if ls.val > (states ⟨letterIndex b, h⟩).val then
      some (Function.update states ⟨letterIndex b, h⟩ ls)
    else some states
  else none

/-- The first loop (lines 78-90), from position `index` on, over the bytes left. -/
def firstPass (word : List Nat) : Nat → List Nat → Scratch → Option Scratch
  | _, [], s => some s
  | index, b :: rest, s =>
    match word[index]? with
    | none => none
    | some wb =>
      let s1 : Scratch :=
        if wb = b then
          { s with
            newGuess := s.newGuess.set index ⟨stringOfByte b, letterState.foundPosition⟩
            letterCounts := s.letterCounts.put b (s.letterCounts.get b - 1) }
        else s
      let ls := if wb = b then letterState.foundPosition else letterState.notGuessed
      match raiseState s1.letterStates b ls with
      | none => none
      | some states => firstPass word (index + 1) rest { s1 with letterStates := states }

/-- The second loop (lines 93-118), from position `index` on, over the bytes left. -/
def secondPass (word : List Nat) : Nat → List Nat → Scratch → Option Scratch
  | _, [], s => some s
  | index, b :: rest, s =>
    match s.newGuess[index]? with
    | none => none
    | some cur =>
      if cur.letter.length ≠ 0 then secondPass word (index + 1) rest s
      else
        let s1 : Scratch :=
          if s.letterCounts.get b = 0 then
            { s with newGuess := s.newGuess.set index ⟨stringOfByte b, letterState.notInWord⟩ }
          else if contains word (stringOfByte b) = true then
            { s with
              newGuess := s.newGuess.set index ⟨stringOfByte b, letterState.found⟩
              letterCounts := s.letterCounts.put b (s.letterCounts.get b - 1) }
          else
            { s with newGuess := s.newGuess.set index ⟨stringOfByte b, letterState.notInWord⟩ }
        let ls :=
          if s.letterCounts.get b = 0 then letterState.notInWord
          else if contains word (stringOfByte b) = true then letterState.found
          else letterState.notInWord
        match raiseState s1.letterStates b ls with
        | none => none
        | some states => secondPass word (index + 1) rest { s1 with letterStates := states }

/-! ## `valid` (lines 202-215) and `guess` (lines 52-127) -/

/-- One of the two loops of `valid`: whether some candidate equals `word`. -/
def anyEqual (word : List Nat) : List (List Nat) → Bool
  | [] => false
  | candidate :: cs => if word = candidate then true else anyEqual word cs

/-- The function `valid`. -/
def valid (lists : WordLists) (word : List Nat) : Bool :=
  if anyEqual word lists.wordsToGuess then true
  else if anyEqual word lists.allWords then true
  else false

/-- The function `getWord`, with the index that `rand.Intn` drew as its argument. -/
def getWord (lists : WordLists) (index : Nat) : Option (List Nat) :=
  lists.wordsToGuess[index]?

/-- The message of `fmt.Errorf("out of guesses")`. -/
def outOfGuessesError : List Nat := bytes "out of guesses"

/-- The message of `fmt.Errorf("'%s' is not a valid word", word)`: the verb `%s` copies
the bytes of `word`. -/
def invalidWordError (word : List Nat) : List Nat :=
  bytes "\x27" ++ word ++ bytes "\x27 is not a valid word"

/-- The method `game.guess`: the session after the call and the value returned, or
`none` when the call panics. -/
def guess (lists : WordLists) (g : game) (word : List Nat) : Option (game × Bool) :=
  if g.guesses.length = 6 then
    some ({ g with err := some outOfGuessesError, done := true }, false)
  else if valid lists word = false then
    some ({ g with err := some (invalidWordError word) }, false)
  else
    let newGuess := List.replicate word.length (guessLetter.mk [] letterState.notGuessed)
    let letterCounts := countLetters (rangeRunes 0 g.word) (fun _ => none)
    match firstPass g.word 0 word ⟨newGuess, letterCounts, g.letterStates⟩ with
    | none => none
    | some s1 =>
      match secondPass g.word 0 word s1 with
      | none => none
      | some s2 =>
        let g1 : game :=
          { g with guesses := g.guesses ++ [s2.newGuess], letterStates := s2.letterStates }
        if word = g.word then some ({ g1 with won := true, done := true }, true)
        else some (g1, true)

/-- A run of `guess` over a list of submitted lines, as the loop of `main` makes them
(without its stop at `done`); `none` when a call panics. -/
def guessAll (lists : WordLists) : game → List (List Nat) → Option game
  | g, [] => some g
  | g, w :: ws =>
    match guess lists g w with
    | none => none
    | some (g1, _) => guessAll lists g1 ws

/-- The outcomes of a record, without the letters. -/
def outcomes (record : List guessLetter) : List letterState := record.map guessLetter.state

/-- The letters of a record as bytes (each `letter` is a one-byte string here). -/
def letters (record : List guessLetter) : List (List Nat) := record.map guessLetter.letter


/-! ## Reference definitions the theorems compare the code with -/

/-- Whether every byte of a word is a lowercase letter, `a` to `z`. -/
def isLower (w : List Nat) : Bool := w.all (fun b => decide (97 ≤ b) && decide (b ≤ 122))

/-- The number of positions, among pairs (target byte, guess byte), where the guess
byte equals the target byte and is the letter `c`. -/
def exactMatches (pairs : List (Nat × Nat)) (c : Nat) : Nat :=
  pairs.countP (fun p => decide (p.1 = p.2) && decide (p.2 = c))

/-- The budget a letter starts the second pass with: its count in the target minus
its exact matches. -/
def startBudget (target word : List Nat) (c : Nat) : Nat :=
  target.count c - exactMatches (target.zip word) c

/-- The reference scan, left to right over the pairs (target byte, guess byte): an
equal pair is an exact match; another position is present and takes one unit of the
budget of its letter when that budget is above 0, and is absent otherwise. -/
def refScan : List (Nat × Nat) → (Nat → Nat) → List guessLetter
  | [], _ => []
  | (t, b) :: ps, budget =>
    if t = b then ⟨[b], letterState.foundPosition⟩ :: refScan ps budget
    else if 0 < budget b then
      ⟨[b], letterState.found⟩ :: refScan ps (fun c => if c = b then budget c - 1 else budget c)
    else ⟨[b], letterState.notInWord⟩ :: refScan ps budget

/-- The two-pass reference scoring of a guess against a target of the same length. -/
def scoreRef (target word : List Nat) : List guessLetter :=
  refScan (target.zip word) (startBudget target word)

/-- The number of positions of a record that hold the letter `c` with the outcome
exact match or present. -/
def hits (record : List guessLetter) (c : Nat) : Nat :=
  record.countP (fun e => decide (e.letter = [c]) &&
    (decide (e.state = letterState.foundPosition) || decide (e.state = letterState.found)))

/-- The table after raising the entry of the lowercase byte `b` to `ls` (lines 86-89). -/
def raiseLower (states : Fin 26 → letterState) (b : Nat) (ls : letterState) :
    Fin 26 → letterState :=
  fun i => if i.val = letterIndex b ∧ ls.val > (states i).val then ls else states i

/-- The first pass seen as a record: an exact match is filled in, another position
still holds the zero value of `guessLetter`. -/
def exactRecord : List (Nat × Nat) → List guessLetter
  | [] => []
  | (t, b) :: ps =>
    (if t = b then ⟨[b], letterState.foundPosition⟩ else ⟨[], letterState.notGuessed⟩) ::
      exactRecord ps

/-- The letter table after the first pass over the pairs (target byte, guess byte). -/
def statesAfterFirst (states : Fin 26 → letterState) : List (Nat × Nat) → Fin 26 → letterState
  | [] => states
  | (t, b) :: ps =>
    statesAfterFirst
      (raiseLower states b (if t = b then letterState.foundPosition else letterState.notGuessed)) ps

/-- The letter table after the second pass: every entry of the record that is not an
exact match raises the entry of its letter. -/
def statesAfterSecond (states : Fin 26 → letterState) :
    List (Nat × letterState) → Fin 26 → letterState
  | [] => states
  | (b, ls) :: es =>
    if ls = letterState.foundPosition then statesAfterSecond states es
    else statesAfterSecond (raiseLower states b ls) es

/-- The letter table that an accepted lowercase guess leaves. -/
def statesAfterGuess (states : Fin 26 → letterState) (target word : List Nat) :
    Fin 26 → letterState :=
  statesAfterSecond (statesAfterFirst states (target.zip word))
    (word.zip (outcomes (scoreRef target word)))

/-- The rank of an outcome in the ordering of the data model of the specification:
Unknown < Absent < Present < ExactMatch. -/
def specRank : letterState → Nat
  | .notGuessed => 0
  | .notInWord => 1
  | .found => 2
  | .foundPosition => 3

/-- The greatest rank, in the ordering of the specification, among the outcomes that
the records of a history hold for the letter `c`; 0 (Unknown) when there is none. -/
def specBest (history : List (List guessLetter)) (c : Nat) : Nat :=
  ((history.flatten.filter (fun e => decide (e.letter = [c]))).map
    (fun e => specRank e.state)).foldl max 0

/-- The letter table as the list of its 26 entries, `a` first. -/
def tableList (f : Fin 26 → letterState) : List letterState := (List.finRange 26).map f

/-- The fields of a session with the letter table as a list, so that two sessions can
be compared by evaluation. -/
structure SessionView where
  word : List Nat
  guesses : List (List guessLetter)
  table : List letterState
  done : Bool
  won : Bool
  err : Option (List Nat)
  deriving DecidableEq

/-- The view of a session. -/
def sessionView (g : game) : SessionView :=
  { word := g.word
    guesses := g.guesses
    table := tableList g.letterStates
    done := g.done
    won := g.won
    err := g.err }

/-! ## Concrete sessions used as examples -/

/-- A small pair of word tables: two targets and two further accepted words. -/
def demoLists : WordLists :=
  { wordsToGuess := [bytes "abide", bytes "crane"]
    allWords := [bytes "daddy", bytes "aside"] }

/-- A fresh session with the target "abide". -/
def abideGame : game := NewGame (bytes "abide")

/-- A fresh session with the target "crane". -/
def craneGame : game := NewGame (bytes "crane")

/-- The record of "daddy" scored against "abide". -/
def daddyRecord : List guessLetter :=
  [⟨bytes "d", .notInWord⟩, ⟨bytes "a", .found⟩, ⟨bytes "d", .notInWord⟩,
   ⟨bytes "d", .foundPosition⟩, ⟨bytes "y", .notInWord⟩]

/-- The letter table after "daddy" was scored against "abide": `a` present, `d` and `y`
not in word. -/
def daddyTable : Fin 26 → letterState :=
  fun i => if i.val = 0 then .found else if i.val = 3 then .notInWord
    else if i.val = 24 then .notInWord else .notGuessed

/-- The session with target "abide" after six guesses "daddy". -/
def sixGame : game :=
  { word := bytes "abide"
    guesses := List.replicate 6 daddyRecord
    letterStates := daddyTable
    done := false
    won := false
    err := none }

/-- The session with target "abide" after six guesses "daddy" and a seventh submission. -/
def lostGame : game :=
  { word := bytes "abide"
    guesses := List.replicate 6 daddyRecord
    letterStates := daddyTable
    done := true
    won := false
    err := some outOfGuessesError }

/-- The session with target "abide" after one guess "daddy". -/
def daddyGame : game :=
  { word := bytes "abide"
    guesses := [daddyRecord]
    letterStates := daddyTable
    done := false
    won := false
    err := none }

/-- The session with target "abide" after two guesses "daddy". -/
def daddyTwice : game :=
  { word := bytes "abide"
    guesses := [daddyRecord, daddyRecord]
    letterStates := daddyTable
    done := false
    won := false
    err := none }

/-- The session with target "crane" after the winning guess "crane". -/
def wonCraneGame : game :=
  { word := bytes "crane"
    guesses := [[⟨bytes "c", .foundPosition⟩, ⟨bytes "r", .foundPosition⟩,
      ⟨bytes "a", .foundPosition⟩, ⟨bytes "n", .foundPosition⟩, ⟨bytes "e", .foundPosition⟩]]
    letterStates := fun i =>
      if i.val = 0 ∨ i.val = 2 ∨ i.val = 4 ∨ i.val = 13 ∨ i.val = 17 then .foundPosition
      else .notGuessed
    done := true
    won := true
    err := none }

/-! ## The loop of `main` and further reference definitions -/

/-- The loop of `main` (lines 225-234): every line read is submitted to `guess`, and the
loop is left as soon as `done` is set; `none` when a call panics. -/
def play (lists : WordLists) : game → List (List Nat) → Option game
  | g, [] => some g
  | g, w :: ws =>
    match guess lists g w with
    | none => none
    | some (g1, _) => if g1.done = true then some g1 else play lists g1 ws

/-- The record that spells `target` with every position an exact match. -/
def winRecord (target : List Nat) : List guessLetter :=
  target.map (fun b => guessLetter.mk [b] letterState.foundPosition)

/-- The record that the two loops of `guess` (lines 64-118) build for `word` against
`target`, run from a blank letter table; `none` when a loop panics. -/
def score (target word : List Nat) : Option (List guessLetter) :=
  match firstPass target 0 word
      ⟨List.replicate word.length (guessLetter.mk [] letterState.notGuessed),
        countLetters (rangeRunes 0 target) (fun _ => none), fun _ => letterState.notGuessed⟩ with
  | none => none
  | some s1 =>
    match secondPass target 0 word s1 with
    | none => none
    | some s2 => some s2.newGuess

/-- The part of the scratch state that does not belong to the session: the record
under construction and the map of counts. -/
def Scratch.core (s : Scratch) : List guessLetter × CountMap := (s.newGuess, s.letterCounts)

/-- Word tables with the target "sheep" and the further word "speed". -/
def sheepLists : WordLists :=
  { wordsToGuess := [bytes "sheep"]
    allWords := [bytes "speed"] }

/-- A fresh session with the target "sheep". -/
def sheepGame : game := NewGame (bytes "sheep")

/-- The record of "speed" scored against "sheep". -/
def speedRecord : List guessLetter :=
  [⟨bytes "s", .foundPosition⟩, ⟨bytes "p", .found⟩, ⟨bytes "e", .foundPosition⟩,
   ⟨bytes "e", .foundPosition⟩, ⟨bytes "d", .notInWord⟩]

/-- The number of pairs (target byte, guess byte) whose guess byte is the letter `c` and
differs from the target byte. -/
def misses (pairs : List (Nat × Nat)) (c : Nat) : Nat :=
  pairs.countP (fun p => !decide (p.1 = p.2) && decide (p.2 = c))

/-- The scratch state with which `guess` enters its first loop (lines 64-75). -/
def startScratch (g : game) (word : List Nat) : Scratch :=
  ⟨List.replicate word.length (guessLetter.mk [] letterState.notGuessed),
    countLetters (rangeRunes 0 g.word) (fun _ => none), g.letterStates⟩

/-- What the second loop relies on: no count is negative, and a byte whose count is not
0 is contained in the target, so that the final `else` of lines 108-112 (count not 0,
letter not contained in the target) cannot be entered. -/
def budgetSound (target : List Nat) (m : CountMap) : Prop :=
  ∀ c, 0 ≤ m.get c ∧ (m.get c ≠ 0 → contains target (stringOfByte c) = true)

/-- The table entry that the numeric order of the constants gives the letter `c` from
the entries recorded for it: not in word if some entry is, otherwise exact match if
some entry is, otherwise present if some entry is, otherwise not guessed. -/
def aggregate (entries : List guessLetter) (c : Nat) : letterState :=
  if entries.any (fun e => decide (e.letter = [c]) && decide (e.state = letterState.notInWord))
  then letterState.notInWord
  else if entries.any
      (fun e => decide (e.letter = [c]) && decide (e.state = letterState.foundPosition))
  then letterState.foundPosition
  else if entries.any (fun e => decide (e.letter = [c]) && decide (e.state = letterState.found))
  then letterState.found
  else letterState.notGuessed

/-- The greatest numeric value among the states of the entries recorded for the letter
`c`; 0 when there is none. -/
def bestVal : List guessLetter → Nat → Nat
  | [], _ => 0
  | e :: es, c => if e.letter = [c] then max e.state.val (bestVal es c) else bestVal es c

/-- The value that the first loop raises the entry of the letter `c` to: 2 when some
position is an exact match of `c`, otherwise 0. -/
def firstVal : List (Nat × Nat) → Nat → Nat
  | [], _ => 0
  | (t, b) :: ps, c => max (if t = b ∧ b = c then 2 else 0) (firstVal ps c)

/-- The value that the second loop raises the entry of the letter `c` to: the greatest
value among the outcomes of the positions of `c` that are not exact matches. -/
def secondVal : List (Nat × letterState) → Nat → Nat
  | [], _ => 0
  | (b, ls) :: es, c =>
    max (if ls ≠ letterState.foundPosition ∧ b = c then ls.val else 0) (secondVal es c)

/-- Whether a word consists of exactly 5 lowercase letters. -/
def fiveLower (w : List Nat) : Bool := decide (w.length = 5) && isLower w

/-- Word tables that break the precondition on the tables: a word of 7 letters and a
word with an uppercase letter. -/
def looseLists : WordLists :=
  { wordsToGuess := [bytes "abide"]
    allWords := [bytes "daddies", bytes "Daddy"] }

/-! ## Lemmas on the Go primitives -/

theorem isLower_iff (w : List Nat) : isLower w = true ↔ ∀ b ∈ w, 97 ≤ b ∧ b ≤ 122 := by
  simp [isLower, List.all_eq_true]

theorem isLower_cons (b : Nat) (w : List Nat) :
    isLower (b :: w) = true ↔ (97 ≤ b ∧ b ≤ 122) ∧ isLower w = true := by
  simp [isLower, List.all_cons]

theorem rangeRunes_ascii (w : List Nat) (h : ∀ b ∈ w, b < 128) : rangeRunes 0 w = w := by
  induction w with
  | nil => rfl
  | cons b rest ih =>
    have hb : b < 128 := h b (by simp)
    have hd : decodeRune (b :: rest) = (b, 1) := by simp [decodeRune, hb]
    have hr : rangeRunes 0 rest = rest := ih (fun x hx => h x (by simp [hx]))
    simp [rangeRunes, hd, hr]

theorem stringOfByte_lower (b : Nat) (h : b ≤ 122) : stringOfByte b = [b] := by
  have : b < 128 := by omega
  simp [stringOfByte, this]

theorem letterIndex_lower (b : Nat) (h1 : 97 ≤ b) (h2 : b ≤ 122) : letterIndex b < 26 := by
  unfold letterIndex
  omega

theorem contains_single (w : List Nat) (b : Nat) : contains w [b] = true ↔ b ∈ w := by
  induction w with
  | nil => simp [contains, startsWith]
  | cons a rest ih =>
    simp only [contains, startsWith, Bool.or_eq_true, Bool.and_eq_true, decide_eq_true_eq, ih,
      List.mem_cons]
    cases rest <;> simp [startsWith, eq_comm]

theorem CountMap.get_put (m : CountMap) (b : Nat) (v : Int) (c : Nat) :
    (m.put b v).get c = if c = b then v else m.get c := by
  unfold CountMap.get CountMap.put
  split <;> simp

theorem countLetters_get (rs : List Nat) (m : CountMap) (c : Nat) (h : ∀ r ∈ rs, r < 256) :
    (countLetters rs m).get c = m.get c + (rs.count c : Int) := by
  induction rs generalizing m with
  | nil => simp [countLetters]
  | cons r rest ih =>
    have hr : r % 256 = r := Nat.mod_eq_of_lt (h r (by simp))
    have hrest : ∀ x ∈ rest, x < 256 := fun x hx => h x (by simp [hx])
    have key : ∀ v : Int, v = m.get r + 1 →
        (countLetters rest (m.put r v)).get c = m.get c + ((r :: rest).count c : Int) := by
      intro v hv
      rw [ih _ hrest, CountMap.get_put, List.count_cons]
      by_cases hc : c = r
      · subst hc; simp [hv]; ring
      · have hc2 : ¬ (r = c) := fun e => hc e.symm
        simp [hc, hc2]
    simp only [countLetters, hr]
    cases hm : m r with
    | none => exact key 1 (by simp [CountMap.get, hm])
    | some count => exact key (count + 1) (by simp [CountMap.get, hm])

theorem valid_iff (lists : WordLists) (word : List Nat) :
    valid lists word = true ↔ word ∈ lists.wordsToGuess ∨ word ∈ lists.allWords := by
  have h : ∀ l : List (List Nat), anyEqual word l = true ↔ word ∈ l := by
    intro l
    induction l with
    | nil => simp [anyEqual]
    | cons a rest ih =>
      by_cases e : word = a
      · simp [anyEqual, e]
      · simp [anyEqual, e, ih]
  unfold valid
  by_cases h1 : anyEqual word lists.wordsToGuess = true
  · simp [h1, (h _).1 h1]
  · by_cases h2 : anyEqual word lists.allWords = true
    · simp [h1, h2, (h _).1 h2]
    · have n1 : word ∉ lists.wordsToGuess := fun x => h1 ((h _).2 x)
      have n2 : word ∉ lists.allWords := fun x => h2 ((h _).2 x)
      simp [h1, h2, n1, n2]

/-! ## The two passes on lowercase words -/

theorem raiseState_lower (states : Fin 26 → letterState) (b : Nat) (ls : letterState)
    (h1 : 97 ≤ b) (h2 : b ≤ 122) : raiseState states b ls = some (raiseLower states b ls) := by
  have hi : letterIndex b < 26 := letterIndex_lower b h1 h2
  unfold raiseState raiseLower
  simp only [hi, dite_true]
  split
  · next hgt =>
    congr 1
    funext i
    by_cases e : i = ⟨letterIndex b, hi⟩
    · subst e
      simp [hgt]
    · have e2 : ¬ (i.val = letterIndex b) := fun x => e (Fin.ext x)
      simp [Function.update_apply, e, e2]
  · next hle =>
    congr 1
    funext i
    by_cases e : i = ⟨letterIndex b, hi⟩
    · subst e
      simp [hle]
    · have e2 : ¬ (i.val = letterIndex b) := fun x => e (Fin.ext x)
      simp [e2]

theorem set_at_length {α : Type} (l1 : List α) (a x : α) (l2 : List α) :
    (l1 ++ a :: l2).set l1.length x = l1 ++ x :: l2 := by
  induction l1 with
  | nil => rfl
  | cons h t ih => simp [ih]

theorem getElem?_at_length {α : Type} (l1 : List α) (a : α) (l2 : List α) :
    (l1 ++ a :: l2)[l1.length]? = some a := by
  induction l1 with
  | nil => simp
  | cons h t ih => simpa using ih

theorem firstPass_lower (bs : List Nat) :
    ∀ (wsuf wpre : List Nat) (filled : List guessLetter) (m : CountMap)
      (states : Fin 26 → letterState),
      filled.length = wpre.length → bs.length ≤ wsuf.length → isLower bs = true →
      ∃ m1 : CountMap,
        firstPass (wpre ++ wsuf) wpre.length bs
            ⟨filled ++ List.replicate bs.length ⟨[], letterState.notGuessed⟩, m, states⟩
          = some ⟨filled ++ exactRecord (wsuf.zip bs), m1, statesAfterFirst states (wsuf.zip bs)⟩
        ∧ ∀ c, m1.get c = m.get c - (exactMatches (wsuf.zip bs) c : Int) := by
  induction bs with
  | nil =>
    intro wsuf wpre filled m states _ _ _
    exact ⟨m, by simp [firstPass, exactRecord, statesAfterFirst], by simp [exactMatches]⟩
  | cons b rest ih =>
    intro wsuf wpre filled m states hfl hlen hlow
    obtain ⟨⟨hb1, hb2⟩, hrest⟩ := (isLower_cons b rest).1 hlow
    cases wsuf with
    | nil => simp at hlen
    | cons t wsuf1 =>
      have hlen1 : rest.length ≤ wsuf1.length := by simpa using hlen
      have hfl1 : (filled ++ [(if t = b then (⟨[b], letterState.foundPosition⟩ : guessLetter)
          else ⟨[], letterState.notGuessed⟩)]).length = (wpre ++ [t]).length := by simp [hfl]
      have hget : (wpre ++ t :: wsuf1)[wpre.length]? = some t := getElem?_at_length wpre t wsuf1
      have hset : ∀ x : guessLetter,
          (filled ++ List.replicate (rest.length + 1)
              (guessLetter.mk [] letterState.notGuessed)).set wpre.length x
            = filled ++ x :: List.replicate rest.length (guessLetter.mk [] letterState.notGuessed) := by
        intro x
        rw [← hfl, List.replicate_succ]
        exact set_at_length filled _ x _
      by_cases e : t = b
      · subst e
        obtain ⟨m1, hrun, hcnt⟩ := ih wsuf1 (wpre ++ [t])
          (filled ++ [⟨[t], letterState.foundPosition⟩]) (m.put t (m.get t - 1))
          (raiseLower states t letterState.foundPosition) (by simp [hfl]) hlen1 hrest
        refine ⟨m1, ?_, ?_⟩
        · simp only [List.append_assoc, List.singleton_append, List.length_append,
            List.length_singleton] at hrun
          simp only [firstPass, hget, List.length_cons, if_true, hset,
            raiseState_lower _ t _ hb1 hb2, stringOfByte_lower t hb2, List.zip_cons_cons,
            exactRecord, statesAfterFirst]
          exact hrun
        · intro c
          rw [hcnt c, CountMap.get_put]
          simp only [List.zip_cons_cons, exactMatches, List.countP_cons]
          by_cases hc : c = t
          · subst hc; simp; ring
          · have hc2 : ¬ (t = c) := fun x => hc x.symm
            simp [hc, hc2]
      · obtain ⟨m1, hrun, hcnt⟩ := ih wsuf1 (wpre ++ [t])
          (filled ++ [⟨[], letterState.notGuessed⟩]) m
          (raiseLower states b letterState.notGuessed) (by simp [hfl]) hlen1 hrest
        refine ⟨m1, ?_, ?_⟩
        · simp only [List.append_assoc, List.singleton_append, List.length_append,
            List.length_singleton] at hrun
          simp only [firstPass, hget, List.length_cons, e, if_false,
            raiseState_lower _ b _ hb1 hb2, List.zip_cons_cons,
            exactRecord, statesAfterFirst, List.replicate_succ]
          exact hrun
        · intro c
          rw [hcnt c]
          simp [List.zip_cons_cons, exactMatches, List.countP_cons, e]

theorem secondPass_lower (word bs : List Nat) :
    ∀ (wsuf : List Nat) (filled : List guessLetter) (m : CountMap) (budget : Nat → Nat)
      (states : Fin 26 → letterState),
      bs.length ≤ wsuf.length → isLower bs = true →
      (∀ c, m.get c = (budget c : Int)) → (∀ c, 0 < budget c → c ∈ word) →
      ∃ m2 : CountMap,
        secondPass word filled.length bs ⟨filled ++ exactRecord (wsuf.zip bs), m, states⟩
          = some ⟨filled ++ refScan (wsuf.zip bs) budget, m2,
              statesAfterSecond states (bs.zip (outcomes (refScan (wsuf.zip bs) budget)))⟩ := by
  induction bs with
  | nil =>
    intro wsuf filled m budget states _ _ _ _
    exact ⟨m, by simp [secondPass, exactRecord, refScan, outcomes, statesAfterSecond]⟩
  | cons b rest ih =>
    intro wsuf filled m budget states hlen hlow hm hmem
    obtain ⟨⟨hb1, hb2⟩, hrest⟩ := (isLower_cons b rest).1 hlow
    cases wsuf with
    | nil => simp at hlen
    | cons t wsuf1 =>
      have hlen1 : rest.length ≤ wsuf1.length := by simpa using hlen
      by_cases e : t = b
      · subst e
        obtain ⟨m2, hrun⟩ := ih wsuf1 (filled ++ [⟨[t], letterState.foundPosition⟩]) m budget
          states hlen1 hrest hm hmem
        refine ⟨m2, ?_⟩
        simp only [List.append_assoc, List.singleton_append, List.length_append,
          List.length_singleton, List.zip] at hrun
        simp only [secondPass, List.zip, List.zipWith_cons_cons, exactRecord, if_true,
          getElem?_at_length, List.length_singleton, ne_eq, one_ne_zero, not_false_eq_true,
          refScan, outcomes, List.map_cons, statesAfterSecond]
        exact hrun
      · by_cases hz : budget b = 0
        · have hmz : m.get b = 0 := by rw [hm b, hz]; rfl
          obtain ⟨m2, hrun⟩ := ih wsuf1 (filled ++ [⟨[b], letterState.notInWord⟩]) m budget
            (raiseLower states b letterState.notInWord) hlen1 hrest hm hmem
          refine ⟨m2, ?_⟩
          simp only [List.append_assoc, List.singleton_append, List.length_append,
            List.length_singleton, List.zip] at hrun
          simp only [secondPass, List.zip, List.zipWith_cons_cons, exactRecord, e, if_false,
            getElem?_at_length, List.length_nil, ne_eq, not_true_eq_false, hmz, if_true,
            set_at_length, raiseState_lower _ b _ hb1 hb2, stringOfByte_lower b hb2,
            refScan, hz, lt_self_iff_false, outcomes, List.map_cons, statesAfterSecond,
            reduceCtorEq]
          exact hrun
        · have hpos : 0 < budget b := Nat.pos_of_ne_zero hz
          have hmnz : ¬ (m.get b = 0) := by
            rw [hm b]
            exact_mod_cast hz
          have hcon : contains word [b] = true := (contains_single word b).2 (hmem b hpos)
          obtain ⟨m2, hrun⟩ := ih wsuf1 (filled ++ [⟨[b], letterState.found⟩])
            (m.put b (m.get b - 1)) (fun c => if c = b then budget c - 1 else budget c)
            (raiseLower states b letterState.found) hlen1 hrest
            (by
              intro c
              rw [CountMap.get_put]
              by_cases hc : c = b
              · subst hc
                simp only [if_true]
                rw [hm c]
                omega
              · simp only [hc, if_false]
                exact hm c)
            (by
              intro c hc
              apply hmem
              by_cases hcb : c = b
              · subst hcb; exact hpos
              · simpa [hcb] using hc)
          refine ⟨m2, ?_⟩
          simp only [List.append_assoc, List.singleton_append, List.length_append,
            List.length_singleton, List.zip] at hrun
          simp only [secondPass, List.zip, List.zipWith_cons_cons, exactRecord, e, if_false,
            getElem?_at_length, List.length_nil, ne_eq, not_true_eq_false, hmnz,
            set_at_length, raiseState_lower _ b _ hb1 hb2, stringOfByte_lower b hb2, hcon,
            if_true, refScan, hpos, outcomes, List.map_cons, statesAfterSecond, reduceCtorEq]
          exact hrun

theorem exactMatches_le_count (target : List Nat) :
    ∀ (word : List Nat) (c : Nat), exactMatches (target.zip word) c ≤ target.count c := by
  induction target with
  | nil => intro word c; simp [exactMatches]
  | cons t rest ih =>
    intro word c
    cases word with
    | nil => simp [exactMatches]
    | cons b bs =>
      have h := ih bs c
      simp only [exactMatches, List.zip_cons_cons, List.countP_cons, List.count_cons] at h ⊢
      by_cases e1 : t = b
      · by_cases e2 : b = c
        · subst e1; subst e2; simp; exact h
        · have e3 : ¬ (t = c) := by rw [e1]; exact e2
          simp [e1, e2]; exact h
      · simp [e1]; omega

theorem startBudget_pos_mem (target word : List Nat) (c : Nat)
    (h : 0 < startBudget target word c) : c ∈ target := by
  unfold startBudget at h
  have : 0 < target.count c := by omega
  exact List.count_pos_iff.1 this

/-- The result of `guess` on a lowercase word that is in the word tables, submitted to a
session with a lowercase target at least as long and with room left in the history. -/
theorem guess_lower (lists : WordLists) (g : game) (word : List Nat)
    (ht : isLower g.word = true) (hw : isLower word = true)
    (hlen : word.length ≤ g.word.length) (hn : g.guesses.length ≠ 6)
    (hv : valid lists word = true) :
    guess lists g word = some
      ({ word := g.word
         guesses := g.guesses ++ [scoreRef g.word word]
         letterStates := statesAfterGuess g.letterStates g.word word
         done := g.done || decide (word = g.word)
         won := g.won || decide (word = g.word)
         err := g.err }, true) := by
  have hascii : ∀ b ∈ g.word, b < 128 := by
    intro b hb
    have := (isLower_iff g.word).1 ht b hb
    omega
  have h256 : ∀ b ∈ g.word, b < 256 := fun b hb => by have := hascii b hb; omega
  obtain ⟨m1, hrun1, hcnt1⟩ := firstPass_lower word g.word [] []
    (countLetters (rangeRunes 0 g.word) (fun _ => none)) g.letterStates rfl hlen hw
  have hbud : ∀ c, m1.get c = (startBudget g.word word c : Int) := by
    intro c
    rw [hcnt1 c, rangeRunes_ascii g.word hascii, countLetters_get g.word _ c h256]
    have hle := exactMatches_le_count g.word word c
    unfold startBudget
    simp only [CountMap.get, Option.getD_none]
    omega
  obtain ⟨m2, hrun2⟩ := secondPass_lower g.word word g.word [] m1 (startBudget g.word word)
    (statesAfterFirst g.letterStates (g.word.zip word)) hlen hw hbud
    (fun c hc => startBudget_pos_mem g.word word c hc)
  simp only [List.nil_append, List.length_nil] at hrun1 hrun2
  unfold guess
  simp only [hn, if_false, hv, Bool.true_eq_false, hrun1, hrun2]
  by_cases e : word = g.word
  · simp [e, scoreRef, statesAfterGuess]
  · simp [e, scoreRef, statesAfterGuess]

/-! ## Properties of the reference scan -/

theorem hits_refScan_le (pairs : List (Nat × Nat)) :
    ∀ (budget : Nat → Nat) (c : Nat),
      hits (refScan pairs budget) c ≤ exactMatches pairs c + budget c := by
  induction pairs with
  | nil => intro budget c; simp [refScan, hits]
  | cons p ps ih =>
    intro budget c
    obtain ⟨t, b⟩ := p
    by_cases e : t = b
    · have h := ih budget c
      simp only [hits, exactMatches] at h
      by_cases ec : b = c
      · simp [refScan, hits, exactMatches, e, ec, List.countP_cons]; omega
      · simp [refScan, hits, exactMatches, e, ec, List.countP_cons]; omega
    · by_cases hpos : 0 < budget b
      · have h := ih (fun x => if x = b then budget x - 1 else budget x) c
        simp only [hits, exactMatches] at h
        by_cases ec : b = c
        · subst ec
          simp [refScan, hits, exactMatches, e, hpos, List.countP_cons] at h ⊢; omega
        · have ec2 : ¬ (c = b) := fun x => ec x.symm
          simp [refScan, hits, exactMatches, e, hpos, ec, ec2, List.countP_cons] at h ⊢; omega
      · have h := ih budget c
        simp only [hits, exactMatches] at h
        simp [refScan, hits, exactMatches, e, hpos, List.countP_cons]; omega

theorem hits_scoreRef_le (target word : List Nat) (c : Nat) :
    hits (scoreRef target word) c ≤ target.count c := by
  have h1 := hits_refScan_le (target.zip word) (startBudget target word) c
  have h2 := exactMatches_le_count target word c
  have h3 : startBudget target word c = target.count c - exactMatches (target.zip word) c := rfl
  unfold scoreRef
  omega

theorem refScan_letters (pairs : List (Nat × Nat)) :
    ∀ budget : Nat → Nat, letters (refScan pairs budget) = pairs.map (fun p => [p.2]) := by
  induction pairs with
  | nil => intro budget; rfl
  | cons p ps ih =>
    intro budget
    obtain ⟨t, b⟩ := p
    simp only [refScan, letters] at ih ⊢
    split
    · simp [ih]
    · split <;> simp [ih]

theorem refScan_exact_iff (pairs : List (Nat × Nat)) :
    ∀ (budget : Nat → Nat) (i : Nat),
      ((refScan pairs budget)[i]?).map guessLetter.state = some letterState.foundPosition ↔
        ∃ p, pairs[i]? = some p ∧ p.1 = p.2 := by
  induction pairs with
  | nil => intro budget i; simp [refScan]
  | cons p ps ih =>
    intro budget i
    obtain ⟨t, b⟩ := p
    cases i with
    | zero =>
      simp only [refScan]
      split
      · next e => simp [e]
      · next e => split <;> simp [e]
    | succ j =>
      simp only [refScan]
      split
      · simpa using ih budget j
      · split
        · simpa using ih _ j
        · simpa using ih budget j

theorem refScan_same (target : List Nat) :
    ∀ budget : Nat → Nat,
      refScan (target.zip target) budget =
        target.map (fun b => guessLetter.mk [b] letterState.foundPosition) := by
  induction target with
  | nil => intro budget; rfl
  | cons t rest ih =>
    intro budget
    have h := ih budget
    simp only [List.zip] at h
    simp only [List.zip, List.zipWith_cons_cons, refScan, if_true, List.map_cons, h]

/-! ## The shape of every result of `guess` -/

theorem guess_cases (lists : WordLists) (g : game) (w : List Nat) (g1 : game) (r : Bool)
    (h : guess lists g w = some (g1, r)) :
    (g.guesses.length = 6 ∧ r = false ∧
        g1 = { g with err := some outOfGuessesError, done := true }) ∨
    (g.guesses.length ≠ 6 ∧ valid lists w = false ∧ r = false ∧
        g1 = { g with err := some (invalidWordError w) }) ∨
    (g.guesses.length ≠ 6 ∧ valid lists w = true ∧ r = true ∧
        ∃ (record : List guessLetter) (states : Fin 26 → letterState),
          g1 = { g with
                 guesses := g.guesses ++ [record]
                 letterStates := states
                 won := g.won || decide (w = g.word)
                 done := g.done || decide (w = g.word) }) := by
  unfold guess at h
  by_cases h6 : g.guesses.length = 6
  · simp only [h6, if_true, Option.some.injEq, Prod.mk.injEq] at h
    exact Or.inl ⟨h6, h.2.symm, h.1.symm⟩
  · by_cases hv : valid lists w = false
    · simp only [h6, if_false, hv, if_true, Option.some.injEq, Prod.mk.injEq] at h
      exact Or.inr (Or.inl ⟨h6, hv, h.2.symm, h.1.symm⟩)
    · have hv1 : valid lists w = true := by simpa using hv
      simp only [h6, if_false, hv1, Bool.true_eq_false] at h
      cases h1 : firstPass g.word 0 w
          ⟨List.replicate w.length ⟨[], letterState.notGuessed⟩,
            countLetters (rangeRunes 0 g.word) (fun _ => none), g.letterStates⟩ with
      | none => simp [h1] at h
      | some s1 =>
        cases h2 : secondPass g.word 0 w s1 with
        | none => simp [h1, h2] at h
        | some s2 =>
          simp only [h1, h2] at h
          refine Or.inr (Or.inr ⟨h6, hv1, ?_, s2.newGuess, s2.letterStates, ?_⟩)
          · by_cases e : w = g.word
            · simp only [e, if_true, Option.some.injEq, Prod.mk.injEq] at h
              exact h.2.symm
            · simp only [e, if_false, Option.some.injEq, Prod.mk.injEq] at h
              exact h.2.symm
          · by_cases e : w = g.word
            · simp only [e, if_true, Option.some.injEq, Prod.mk.injEq] at h
              rw [← h.1]
              simp [e]
            · simp only [e, if_false, Option.some.injEq, Prod.mk.injEq] at h
              rw [← h.1]
              simp [e]

theorem tableList_inj (f h : Fin 26 → letterState) (e : tableList f = tableList h) : f = h := by
  funext i
  have := congrArg (fun l => l[i.val]?) e
  simpa [tableList] using this

theorem sessionView_inj (a b : game) (e : sessionView a = sessionView b) : a = b := by
  cases a
  cases b
  simp only [sessionView, SessionView.mk.injEq] at e
  obtain ⟨h1, h2, h3, h4, h5, h6⟩ := e
  simp only [game.mk.injEq]
  exact ⟨h1, h2, tableList_inj _ _ h3, h4, h5, h6⟩

theorem guess_eq_of_view (o : Option (game × Bool)) (g : game) (r : Bool)
    (e : o.map (fun x => (sessionView x.1, x.2)) = some (sessionView g, r)) : o = some (g, r) := by
  cases o with
  | none => simp at e
  | some x =>
    obtain ⟨x1, x2⟩ := x
    simp only [Option.map_some', Option.some.injEq, Prod.mk.injEq] at e
    rw [sessionView_inj x1 g e.1, e.2]

theorem guessAll_eq_of_view (o : Option game) (g : game)
    (e : o.map sessionView = some (sessionView g)) : o = some g := by
  cases o with
  | none => simp at e
  | some x =>
    simp only [Option.map_some', Option.some.injEq] at e
    rw [sessionView_inj x g e]

theorem scoreRef_letters (target word : List Nat) (hlen : word.length ≤ target.length) :
    letters (scoreRef target word) = word.map (fun b => [b]) := by
  unfold scoreRef
  rw [refScan_letters]
  have h : (target.zip word).map Prod.snd = word := List.map_snd_zip target word hlen
  have h2 : (target.zip word).map (fun p => [p.2]) =
      ((target.zip word).map Prod.snd).map (fun b => [b]) := by
    rw [List.map_map]
    rfl
  rw [h2, h]

theorem scoreRef_exact_iff (target word : List Nat) (i : Nat) (hi : i < word.length)
    (hlen : word.length ≤ target.length) :
    ((scoreRef target word)[i]?).map guessLetter.state = some letterState.foundPosition ↔
      word[i]? = target[i]? := by
  unfold scoreRef
  rw [refScan_exact_iff]
  have hi2 : i < target.length := by omega
  have hw : word[i]? = some word[i] := List.getElem?_eq_getElem hi
  have htg : target[i]? = some target[i] := List.getElem?_eq_getElem hi2
  constructor
  · rintro ⟨p, hp, e⟩
    rw [List.getElem?_zip_eq_some] at hp
    rw [hp.1, hp.2, e]
  · intro e
    refine ⟨(target[i], word[i]), ?_, ?_⟩
    · rw [List.getElem?_zip_eq_some]
      exact ⟨htg, hw⟩
    · rw [hw, htg] at e
      exact (Option.some.inj e).symm

theorem scoreRef_same (target : List Nat) :
    scoreRef target target = target.map (fun b => guessLetter.mk [b] letterState.foundPosition) := by
  unfold scoreRef
  exact refScan_same target _

/-! ## Scoring -/

/-- C1: for a lowercase target and a lowercase word of the same length that is in the
word tables, submitted while the history holds fewer than 6 records, `guess` returns
true and appends the two-pass reference record `scoreRef`: entry i carries the letter
`word[i]`, it is an exact match exactly when `word[i]` equals the target byte at i, and
the other positions are scored by `refScan` from the budget `startBudget`. -/
theorem guess_appends_reference_record (lists : WordLists) (g : game) (word : List Nat)
    (ht : isLower g.word = true) (hw : isLower word = true)
    (hlen : word.length = g.word.length) (hn : g.guesses.length < 6)
    (hv : valid lists word = true) :
    ∃ g1, guess lists g word = some (g1, true) ∧
      g1.guesses = g.guesses ++ [scoreRef g.word word] ∧
      scoreRef g.word word = refScan (g.word.zip word)
        (fun c => g.word.count c - exactMatches (g.word.zip word) c) ∧
      letters (scoreRef g.word word) = word.map (fun b => [b]) ∧
      ∀ i, i < word.length →
        (((scoreRef g.word word)[i]?).map guessLetter.state = some letterState.foundPosition ↔
          word[i]? = g.word[i]?) := by
  have hle : word.length ≤ g.word.length := by omega
  refine ⟨_, guess_lower lists g word ht hw hle (by omega) hv, rfl, rfl,
    scoreRef_letters g.word word hle, ?_⟩
  intro i hi
  exact scoreRef_exact_iff g.word word i hi hle

/-- The statement of C1 at the target "abide" and the guess "daddy". -/
theorem guess_appends_reference_record_witness :
    ∃ g1, guess demoLists abideGame (bytes "daddy") = some (g1, true) ∧
      g1.guesses = abideGame.guesses ++ [scoreRef abideGame.word (bytes "daddy")] ∧
      scoreRef abideGame.word (bytes "daddy") = refScan (abideGame.word.zip (bytes "daddy"))
        (fun c => abideGame.word.count c - exactMatches (abideGame.word.zip (bytes "daddy")) c) ∧
      letters (scoreRef abideGame.word (bytes "daddy")) = (bytes "daddy").map (fun b => [b]) ∧
      ∀ i, i < (bytes "daddy").length →
        (((scoreRef abideGame.word (bytes "daddy"))[i]?).map guessLetter.state
            = some letterState.foundPosition ↔
          (bytes "daddy")[i]? = abideGame.word[i]?) :=
  guess_appends_reference_record demoLists abideGame (bytes "daddy")
    (by decide) (by decide) (by decide) (by decide) (by decide)

/-- C2: for a lowercase target and an accepted lowercase word no longer than the target,
`guess` returns true and appends a record in which, for every letter `c`, the number of
positions holding `c` as an exact match or as present is at most the number of
occurrences of `c` in the target. -/
theorem guess_hits_le_target_count (lists : WordLists) (g : game) (word : List Nat)
    (ht : isLower g.word = true) (hw : isLower word = true)
    (hlen : word.length ≤ g.word.length) (hn : g.guesses.length < 6)
    (hv : valid lists word = true) :
    ∃ g1 record, guess lists g word = some (g1, true) ∧
      g1.guesses = g.guesses ++ [record] ∧
      ∀ c, hits record c ≤ g.word.count c :=
  ⟨_, scoreRef g.word word, guess_lower lists g word ht hw hlen (by omega) hv, rfl,
    fun c => hits_scoreRef_le g.word word c⟩

/-- The statement of C2 at the target "abide" and the guess "daddy". -/
theorem guess_hits_le_target_count_witness :
    ∃ g1 record, guess demoLists abideGame (bytes "daddy") = some (g1, true) ∧
      g1.guesses = abideGame.guesses ++ [record] ∧
      ∀ c, hits record c ≤ abideGame.word.count c :=
  guess_hits_le_target_count demoLists abideGame (bytes "daddy")
    (by decide) (by decide) (by decide) (by decide) (by decide)

/-! ## Winning -/

/-- C5: in a session with fewer than 6 records whose target is a lowercase word of the
word tables, `guess` called with the target returns true, appends a record with one
entry per letter of the target, every entry an exact match, and sets `won` and `done`. -/
theorem guess_target_wins (lists : WordLists) (g : game)
    (ht : isLower g.word = true) (hn : g.guesses.length < 6)
    (hv : valid lists g.word = true) :
    ∃ g1 record, guess lists g g.word = some (g1, true) ∧
      g1.guesses = g.guesses ++ [record] ∧
      record.length = g.word.length ∧
      (∀ e ∈ record, e.state = letterState.foundPosition) ∧
      letters record = g.word.map (fun b => [b]) ∧
      g1.won = true ∧ g1.done = true := by
  refine ⟨_, scoreRef g.word g.word,
    guess_lower lists g g.word ht ht (Nat.le_refl _) (by omega) hv, rfl, ?_, ?_, ?_, ?_, ?_⟩
  · simp [scoreRef_same]
  · intro e he
    rw [scoreRef_same] at he
    obtain ⟨b, _, rfl⟩ := List.mem_map.1 he
    rfl
  · exact scoreRef_letters g.word g.word (Nat.le_refl _)
  · simp
  · simp

/-- The statement of C5 at the target "crane" and the guess "crane". -/
theorem guess_target_wins_witness :
    ∃ g1 record, guess demoLists craneGame craneGame.word = some (g1, true) ∧
      g1.guesses = craneGame.guesses ++ [record] ∧
      record.length = craneGame.word.length ∧
      (∀ e ∈ record, e.state = letterState.foundPosition) ∧
      letters record = craneGame.word.map (fun b => [b]) ∧
      g1.won = true ∧ g1.done = true :=
  guess_target_wins demoLists craneGame (by decide) (by decide) (by decide)

/-! ## The letter table -/

/-- C3: with the target "abide", the guess "aside" leaves the entry of `d` (index 3) at
foundPosition; the next guess "daddy" scores its first `d` as not in word and the
entry of `d` becomes notInWord. -/
theorem exact_letter_lowered_by_later_guess :
    (guess demoLists abideGame (bytes "aside")).bind (fun r1 =>
      (guess demoLists r1.1 (bytes "daddy")).map (fun r2 =>
        (r1.2, r1.1.letterStates 3, r2.2, r2.1.guesses.map outcomes, r2.1.letterStates 3)))
    = some (true, letterState.foundPosition, true,
        [[.foundPosition, .notInWord, .foundPosition, .foundPosition, .foundPosition],
         [.notInWord, .found, .notInWord, .foundPosition, .notInWord]],
        letterState.notInWord) := by
  decide

/-- C4: with the target "abide", after the single guess "daddy" the history holds an
exact match for `d` (rank 3 in the ordering of the specification), yet the entry of
`d` in the letter table is notInWord (rank 1). -/
theorem table_entry_below_best_outcome :
    (guess demoLists abideGame (bytes "daddy")).map (fun r =>
      (r.2, r.1.guesses, specBest r.1.guesses 100, r.1.letterStates 3,
        specRank (r.1.letterStates 3)))
    = some (true, [daddyRecord], 3, letterState.notInWord, 1) := by
  decide

/-! ## The end of a session -/

theorem guessAll_nonmatching (lists : WordLists) (ws : List (List Nat)) :
    ∀ g : game, isLower g.word = true →
      (∀ w ∈ ws, isLower w = true ∧ w.length ≤ g.word.length ∧ valid lists w = true ∧
        w ≠ g.word) →
      g.guesses.length + ws.length ≤ 6 →
      ∃ g1, guessAll lists g ws = some g1 ∧ g1.word = g.word ∧
        g1.guesses.length = g.guesses.length + ws.length ∧
        g1.done = g.done ∧ g1.won = g.won := by
  induction ws with
  | nil => intro g _ _ _; exact ⟨g, rfl, rfl, rfl, rfl, rfl⟩
  | cons w rest ih =>
    intro g ht hws hlen
    obtain ⟨hw1, hw2, hw3, hw4⟩ := hws w (by simp)
    simp only [List.length_cons] at hlen
    have hstep := guess_lower lists g w ht hw1 hw2 (by omega) hw3
    obtain ⟨g1, hrun, h1, h2, h3, h4⟩ := ih
      { word := g.word
        guesses := g.guesses ++ [scoreRef g.word w]
        letterStates := statesAfterGuess g.letterStates g.word w
        done := g.done || decide (w = g.word)
        won := g.won || decide (w = g.word)
        err := g.err } ht
      (fun x hx => hws x (by simp [hx])) (by simp; omega)
    refine ⟨g1, ?_, h1, ?_, ?_, ?_⟩
    · simp only [guessAll, hstep]
      exact hrun
    · rw [h2]; simp; omega
    · rw [h3]; simp [hw4]
    · rw [h4]; simp [hw4]

/-- C6, as the code has it: from a fresh session with a lowercase target, six calls of
`guess` with lowercase words of the word tables, no longer than the target and all
different from it, leave 6 records, `won` false and `done` still false; the next call,
with any word, returns false with the error "out of guesses" and it is that call
which sets `done`, `won` staying false. -/
theorem six_misses_then_out_of_guesses (lists : WordLists) (target : List Nat)
    (ws : List (List Nat)) (ht : isLower target = true) (h6 : ws.length = 6)
    (hws : ∀ w ∈ ws, isLower w = true ∧ w.length ≤ target.length ∧ valid lists w = true ∧
      w ≠ target) :
    ∃ g, guessAll lists (NewGame target) ws = some g ∧
      g.guesses.length = 6 ∧ g.won = false ∧ g.done = false ∧
      ∀ w, ∃ g1, guess lists g w = some (g1, false) ∧
        g1.err = some outOfGuessesError ∧ g1.done = true ∧ g1.won = false ∧
        g1.guesses = g.guesses := by
  obtain ⟨g, hrun, _, h2, h3, h4⟩ := guessAll_nonmatching lists ws (NewGame target) ht hws
    (by simp [NewGame, h6])
  have hlen : g.guesses.length = 6 := by rw [h2]; simp [NewGame, h6]
  have hdone : g.done = false := by rw [h3]; rfl
  have hwon : g.won = false := by rw [h4]; rfl
  refine ⟨g, hrun, hlen, hwon, hdone, ?_⟩
  intro w
  refine ⟨{ g with err := some outOfGuessesError, done := true }, ?_, rfl, rfl, hwon, rfl⟩
  simp [guess, hlen]

/-- The amended statement of C6 at the target "abide" and six guesses "daddy". -/
theorem six_misses_then_out_of_guesses_witness :
    ∃ g, guessAll demoLists (NewGame (bytes "abide")) (List.replicate 6 (bytes "daddy"))
        = some g ∧
      g.guesses.length = 6 ∧ g.won = false ∧ g.done = false ∧
      ∀ w, ∃ g1, guess demoLists g w = some (g1, false) ∧
        g1.err = some outOfGuessesError ∧ g1.done = true ∧ g1.won = false ∧
        g1.guesses = g.guesses :=
  six_misses_then_out_of_guesses demoLists (bytes "abide") (List.replicate 6 (bytes "daddy"))
    (by decide) (by decide) (by decide)

/-- C6, as stated, fails: with the target "abide", after six accepted guesses "daddy"
the history holds 6 records and `won` is false, but `done` is false as well. -/
theorem six_misses_leave_done_false :
    valid demoLists (bytes "daddy") = true ∧ bytes "daddy" ≠ bytes "abide" ∧
    (guessAll demoLists (NewGame (bytes "abide")) (List.replicate 6 (bytes "daddy"))).map
      (fun g => (g.guesses.length, g.won, g.done)) = some (6, false, false) := by
  decide

theorem guess_done_inv (lists : WordLists) (g : game) (w : List Nat) (g1 : game) (r : Bool)
    (h : guess lists g w = some (g1, r))
    (hi : g.done = true → g.won = true ∨ g.guesses.length = 6) :
    g1.done = true → g1.won = true ∨ g1.guesses.length = 6 := by
  rcases guess_cases lists g w g1 r h with ⟨h6, _, rfl⟩ | ⟨_, _, _, rfl⟩ |
    ⟨h6, _, _, record, states, rfl⟩
  · intro _; exact Or.inr h6
  · exact hi
  · intro hd
    left
    simp only [Bool.or_eq_true, decide_eq_true_eq] at hd ⊢
    rcases hd with hd | hd
    · rcases hi hd with hwon | hlen
      · exact Or.inl hwon
      · exact absurd hlen h6
    · exact Or.inr hd

theorem guessAll_done_inv (lists : WordLists) (ws : List (List Nat)) :
    ∀ g g1 : game, guessAll lists g ws = some g1 →
      (g.done = true → g.won = true ∨ g.guesses.length = 6) →
      g1.done = true → g1.won = true ∨ g1.guesses.length = 6 := by
  induction ws with
  | nil =>
    intro g g1 h hi
    simp only [guessAll, Option.some.injEq] at h
    rw [← h]
    exact hi
  | cons w rest ih =>
    intro g g1 h hi
    simp only [guessAll] at h
    cases hg : guess lists g w with
    | none => simp [hg] at h
    | some x =>
      obtain ⟨g2, r⟩ := x
      simp only [hg] at h
      exact ih g2 g1 h (guess_done_inv lists g w g2 r hg hi)

/-- C7, as the code has it: in a session reached from a fresh one by calls of `guess`
that is over and lost (`done` true and `won` false), or whose history holds 6 records,
`guess` returns false for every word and leaves the history, the letter table and
`won` unchanged, with `done` true. -/
theorem over_session_with_full_history_rejects (lists : WordLists) (target : List Nat)
    (ws : List (List Nat)) (g : game) (w : List Nat)
    (hr : guessAll lists (NewGame target) ws = some g) (hd : g.done = true)
    (hl : g.won = false ∨ g.guesses.length = 6) :
    ∃ g1, guess lists g w = some (g1, false) ∧ g1.guesses = g.guesses ∧
      g1.letterStates = g.letterStates ∧ g1.won = g.won ∧ g1.done = true := by
  have hinv := guessAll_done_inv lists ws (NewGame target) g hr (by simp [NewGame]) hd
  have h6 : g.guesses.length = 6 := by
    rcases hl with hl | hl
    · rcases hinv with hw | h6
      · rw [hl] at hw; exact absurd hw (by simp)
      · exact h6
    · exact hl
  refine ⟨{ g with err := some outOfGuessesError, done := true }, ?_, rfl, rfl, rfl, rfl⟩
  simp [guess, h6]

/-- The amended statement of C7 at the session lost on "abide" and the word "crane". -/
theorem over_session_with_full_history_rejects_witness :
    ∃ g1, guess demoLists lostGame (bytes "crane") = some (g1, false) ∧
      g1.guesses = lostGame.guesses ∧ g1.letterStates = lostGame.letterStates ∧
      g1.won = lostGame.won ∧ g1.done = true :=
  over_session_with_full_history_rejects demoLists (bytes "abide")
    (List.replicate 7 (bytes "daddy")) lostGame (bytes "crane")
    (guessAll_eq_of_view _ _ (by decide)) (by decide) (Or.inl (by decide))

/-- C7, as stated, fails: with the target "crane", the guess "crane" wins (`done` and
`won` true, 1 record); a further call of `guess` with "abide" returns true and the
history then holds 2 records. -/
theorem won_session_accepts_guess :
    (guess demoLists craneGame (bytes "crane")).bind (fun r1 =>
      (guess demoLists r1.1 (bytes "abide")).map (fun r2 =>
        (r1.1.done, r1.1.won, r1.1.guesses.length, r2.2, r2.1.guesses.length)))
    = some (true, true, 1, true, 2) := by
  decide

/-! ## Failing calls -/

/-- C8: in a session with fewer than 6 records, `guess` called with a word that is in
neither word table returns false, sets the error to the bytes of
"'<word>' is not a valid word", and leaves the target, the history, the letter table,
`done` and `won` unchanged. -/
theorem invalid_word_rejected (lists : WordLists) (g : game) (word : List Nat)
    (hn : g.guesses.length < 6) (h1 : word ∉ lists.wordsToGuess)
    (h2 : word ∉ lists.allWords) :
    ∃ g1, guess lists g word = some (g1, false) ∧
      g1.err = some (bytes "\x27" ++ word ++ bytes "\x27 is not a valid word") ∧
      g1.guesses = g.guesses ∧ g1.guesses.length + 1 = g.guesses.length + 1 ∧
      g1.letterStates = g.letterStates ∧ g1.done = g.done ∧ g1.won = g.won ∧
      g1.word = g.word := by
  have hv : valid lists word = false := by
    cases hvv : valid lists word with
    | false => rfl
    | true =>
      rcases (valid_iff lists word).1 hvv with h | h
      · exact absurd h h1
      · exact absurd h h2
  have h6 : ¬ (g.guesses.length = 6) := by omega
  refine ⟨{ g with err := some (invalidWordError word) }, ?_, rfl, rfl, rfl, rfl, rfl, rfl, rfl⟩
  simp [guess, h6, hv]

/-- The statement of C8 at a fresh session and the word "zzzzz". -/
theorem invalid_word_rejected_witness :
    ∃ g1, guess demoLists abideGame (bytes "zzzzz") = some (g1, false) ∧
      g1.err = some (bytes "\x27" ++ bytes "zzzzz" ++ bytes "\x27 is not a valid word") ∧
      g1.guesses = abideGame.guesses ∧
      g1.guesses.length + 1 = abideGame.guesses.length + 1 ∧
      g1.letterStates = abideGame.letterStates ∧ g1.done = abideGame.done ∧
      g1.won = abideGame.won ∧ g1.word = abideGame.word :=
  invalid_word_rejected demoLists abideGame (bytes "zzzzz") (by decide) (by decide) (by decide)

/-- C9, as the code has it: when `guess` returns false, the target, the history, the
letter table and `won` are as before the call; `done` is as before when the failure is
an invalid word, and is true after the failure "out of guesses", whatever it was. -/
theorem failing_guess_frame (lists : WordLists) (g : game) (w : List Nat) (g1 : game)
    (h : guess lists g w = some (g1, false)) :
    g1.word = g.word ∧ g1.guesses = g.guesses ∧ g1.letterStates = g.letterStates ∧
      g1.won = g.won ∧
      (g.guesses.length ≠ 6 → g1.done = g.done ∧ g1.err = some (invalidWordError w)) ∧
      (g.guesses.length = 6 → g1.done = true ∧ g1.err = some outOfGuessesError) := by
  rcases guess_cases lists g w g1 false h with ⟨h6, _, rfl⟩ | ⟨h6, _, _, rfl⟩ |
    ⟨_, _, hr, _⟩
  · exact ⟨rfl, rfl, rfl, rfl, fun x => absurd h6 x, fun _ => ⟨rfl, rfl⟩⟩
  · exact ⟨rfl, rfl, rfl, rfl, fun _ => ⟨rfl, rfl⟩, fun x => absurd x h6⟩
  · exact absurd hr (by simp)

/-- The amended statement of C9 at the seventh submission after six guesses "daddy". -/
theorem failing_guess_frame_witness :
    lostGame.word = sixGame.word ∧ lostGame.guesses = sixGame.guesses ∧
      lostGame.letterStates = sixGame.letterStates ∧ lostGame.won = sixGame.won ∧
      (sixGame.guesses.length ≠ 6 →
        lostGame.done = sixGame.done ∧ lostGame.err = some (invalidWordError (bytes "daddy"))) ∧
      (sixGame.guesses.length = 6 →
        lostGame.done = true ∧ lostGame.err = some outOfGuessesError) :=
  failing_guess_frame demoLists sixGame (bytes "daddy") lostGame
    (guess_eq_of_view _ _ _ (by decide))

/-- C9, as stated, fails: with the target "abide", after six accepted guesses "daddy"
`done` is false; a seventh call returns false and leaves `done` true. -/
theorem out_of_guesses_call_sets_done :
    (guessAll demoLists (NewGame (bytes "abide")) (List.replicate 6 (bytes "daddy"))).bind
      (fun g => (guess demoLists g (bytes "daddy")).map (fun r => (g.done, r.2, r.1.done)))
    = some (false, false, true) := by
  decide

/-- C10: when the history holds 6 records, `guess` returns false for every word, in the
word tables or not, sets the error "out of guesses" and leaves the history as it is;
the test on the word tables is not reached. -/
theorem full_history_out_of_guesses (lists : WordLists) (g : game) (word : List Nat)
    (h6 : g.guesses.length = 6) :
    guess lists g word = some ({ g with err := some outOfGuessesError, done := true }, false) ∧
      outOfGuessesError = bytes "out of guesses" ∧
      ∀ g1 r, guess lists g word = some (g1, r) → g1.guesses = g.guesses := by
  have h : guess lists g word =
      some ({ g with err := some outOfGuessesError, done := true }, false) := by
    simp [guess, h6]
  refine ⟨h, rfl, ?_⟩
  intro g1 r e
  rw [h] at e
  simp only [Option.some.injEq, Prod.mk.injEq] at e
  rw [← e.1]

/-- The statement of C10 at a session with six records and the word "crane". -/
theorem full_history_out_of_guesses_witness :
    guess demoLists sixGame (bytes "crane")
        = some ({ sixGame with err := some outOfGuessesError, done := true }, false) ∧
      outOfGuessesError = bytes "out of guesses" ∧
      ∀ g1 r, guess demoLists sixGame (bytes "crane") = some (g1, r) →
        g1.guesses = sixGame.guesses :=
  full_history_out_of_guesses demoLists sixGame (bytes "crane") (by decide)

/-! ## Invariants of the session -/

theorem guess_length_le (lists : WordLists) (g : game) (w : List Nat) (g1 : game) (r : Bool)
    (h : guess lists g w = some (g1, r)) (hi : g.guesses.length ≤ 6) :
    g1.guesses.length ≤ 6 := by
  rcases guess_cases lists g w g1 r h with ⟨_, _, rfl⟩ | ⟨_, _, _, rfl⟩ |
    ⟨h6, _, _, record, states, rfl⟩
  · exact hi
  · exact hi
  · simp only [List.length_append, List.length_singleton]
    omega

theorem guessAll_length_le (lists : WordLists) (ws : List (List Nat)) :
    ∀ g g1 : game, guessAll lists g ws = some g1 → g.guesses.length ≤ 6 →
      g1.guesses.length ≤ 6 := by
  induction ws with
  | nil =>
    intro g g1 h hi
    simp only [guessAll, Option.some.injEq] at h
    rw [← h]
    exact hi
  | cons w rest ih =>
    intro g g1 h hi
    simp only [guessAll] at h
    cases hg : guess lists g w with
    | none => simp [hg] at h
    | some x =>
      obtain ⟨g2, r⟩ := x
      simp only [hg] at h
      exact ih g2 g1 h (guess_length_le lists g w g2 r hg hi)

theorem play_won_last (lists : WordLists) (ws : List (List Nat)) :
    ∀ g g1 : game, isLower g.word = true → g.done = false → g.won = false →
      play lists g ws = some g1 → g1.won = true →
      g1.guesses.getLast? = some (winRecord g.word) := by
  induction ws with
  | nil =>
    intro g g1 _ _ hw h hw1
    simp only [play, Option.some.injEq] at h
    rw [← h, hw] at hw1
    exact absurd hw1 (by simp)
  | cons w rest ih =>
    intro g g1 ht hd hw h hw1
    simp only [play] at h
    cases hg : guess lists g w with
    | none => simp [hg] at h
    | some x =>
      obtain ⟨g2, r⟩ := x
      simp only [hg] at h
      rcases guess_cases lists g w g2 r hg with ⟨_, _, e⟩ | ⟨_, _, _, e⟩ |
        ⟨h6, hv, _, record, states, e⟩
      · subst e
        simp only [if_true, Option.some.injEq] at h
        rw [← h] at hw1
        simp only at hw1
        rw [hw] at hw1
        exact absurd hw1 (by simp)
      · subst e
        simp only [hd, Bool.false_eq_true, if_false] at h
        exact ih { g with done := false, err := some (invalidWordError w) } g1 ht rfl hw h hw1
      · by_cases ew : w = g.word
        · have hstep := guess_lower lists g w ht (by rw [ew]; exact ht) (by rw [ew]) h6 hv
          rw [hstep] at hg
          simp only [Option.some.injEq, Prod.mk.injEq] at hg
          have hg2 := hg.1
          subst hg2
          simp only [ew, decide_True, Bool.or_true, if_true, Option.some.injEq] at h
          rw [← h]
          simp [scoreRef_same, winRecord]
        · subst e
          simp only [hd, ew, decide_False, Bool.or_false, Bool.false_eq_true, if_false] at h
          exact ih (game.mk g.word (g.guesses ++ [record]) states false g.won g.err) g1 ht rfl hw
            h hw1

/-- C11, as the code has it: in every state that the loop of `main` reaches from a fresh
session with a lowercase target (it submits each line to `guess` and stops once `done`
is set), `won` true implies that the most recent record of the history is all exact
matches and spells the target. -/
theorem won_implies_last_record_is_target (lists : WordLists) (target : List Nat)
    (ws : List (List Nat)) (g : game) (ht : isLower target = true)
    (hr : play lists (NewGame target) ws = some g) (hw : g.won = true) :
    g.guesses.getLast? = some (winRecord target) ∧
      (∀ e ∈ winRecord target, e.state = letterState.foundPosition) ∧
      letters (winRecord target) = target.map (fun b => [b]) := by
  refine ⟨play_won_last lists ws (NewGame target) g ht rfl rfl hr hw, ?_, ?_⟩
  · intro e he
    obtain ⟨b, _, rfl⟩ := List.mem_map.1 he
    rfl
  · simp [letters, winRecord]

/-- The amended statement of C11 at the target "crane" and the single line "crane". -/
theorem won_implies_last_record_is_target_witness :
    wonCraneGame.guesses.getLast? = some (winRecord (bytes "crane")) ∧
      (∀ e ∈ winRecord (bytes "crane"), e.state = letterState.foundPosition) ∧
      letters (winRecord (bytes "crane")) = (bytes "crane").map (fun b => [b]) :=
  won_implies_last_record_is_target demoLists (bytes "crane") [bytes "crane"] wonCraneGame
    (by decide) (guessAll_eq_of_view _ _ (by decide)) (by decide)

/-- C11, as stated, fails: with the target "crane", the guess "crane" wins; `guess` then
accepts "abide", after which `won` is still true and the most recent record is the one
of "abide", with three positions not in word. -/
theorem won_session_last_record_not_target :
    (guessAll demoLists craneGame [bytes "crane", bytes "abide"]).map
      (fun g => (g.won, g.guesses.length, g.guesses.getLast?.map outcomes))
    = some (true, 2, some [letterState.found, .notInWord, .notInWord, .notInWord,
        .foundPosition]) := by
  decide

/-- C12: in every state reached from a fresh session by a sequence of calls of `guess`,
with any words, the history holds at most 6 records. -/
theorem history_length_le_six (lists : WordLists) (target : List Nat) (ws : List (List Nat))
    (g : game) (hr : guessAll lists (NewGame target) ws = some g) :
    g.guesses.length ≤ 6 :=
  guessAll_length_le lists ws (NewGame target) g hr (by simp [NewGame])

/-- The statement of C12 at the target "abide" and seven lines "daddy". -/
theorem history_length_le_six_witness : lostGame.guesses.length ≤ 6 :=
  history_length_le_six demoLists (bytes "abide") (List.replicate 7 (bytes "daddy")) lostGame
    (guessAll_eq_of_view _ _ (by decide))

/-- C13: in every state reached from a fresh session by a sequence of calls of `guess`,
`done` true implies `won` true or a history of exactly 6 records. -/
theorem done_implies_won_or_full (lists : WordLists) (target : List Nat)
    (ws : List (List Nat)) (g : game)
    (hr : guessAll lists (NewGame target) ws = some g) (hd : g.done = true) :
    g.won = true ∨ g.guesses.length = 6 :=
  guessAll_done_inv lists ws (NewGame target) g hr (by simp [NewGame]) hd

/-- The statement of C13 at the target "crane" and the single line "crane". -/
theorem done_implies_won_or_full_witness :
    wonCraneGame.won = true ∨ wonCraneGame.guesses.length = 6 :=
  done_implies_won_or_full demoLists (bytes "crane") [bytes "crane"] wonCraneGame
    (guessAll_eq_of_view _ _ (by decide)) (by decide)

/-! ## The history -/

/-- C17: a call of `guess` that returns true leaves the target unchanged, leaves every
earlier record of the history unchanged at its index, and lengthens the history by
exactly one record. -/
theorem successful_guess_appends_one (lists : WordLists) (g : game) (w : List Nat)
    (g1 : game) (h : guess lists g w = some (g1, true)) :
    g1.word = g.word ∧ g1.guesses.length = g.guesses.length + 1 ∧
      (∀ i, i < g.guesses.length → g1.guesses[i]? = g.guesses[i]?) ∧
      ∃ record, g1.guesses = g.guesses ++ [record] := by
  rcases guess_cases lists g w g1 true h with ⟨_, hr, _⟩ | ⟨_, _, hr, _⟩ |
    ⟨_, _, _, record, states, rfl⟩
  · exact absurd hr (by simp)
  · exact absurd hr (by simp)
  · refine ⟨rfl, by simp, ?_, record, rfl⟩
    intro i hi
    exact List.getElem?_append_left hi

/-- The statement of C17 at the session that holds one record, and the guess "daddy". -/
theorem successful_guess_appends_one_witness :
    daddyTwice.word = daddyGame.word ∧
      daddyTwice.guesses.length = daddyGame.guesses.length + 1 ∧
      (∀ i, i < daddyGame.guesses.length → daddyTwice.guesses[i]? = daddyGame.guesses[i]?) ∧
      ∃ record, daddyTwice.guesses = daddyGame.guesses ++ [record] :=
  successful_guess_appends_one demoLists daddyGame (bytes "daddy") daddyTwice
    (guess_eq_of_view _ _ _ (by decide))

/-! ## The two examples of the specification -/

/-- C14, as the code has it: with the target "sheep" and the accepted guess "speed", the
appended record has exact matches at positions 0, 2 and 3 (`s`, `e`, `e`), position 1
(`p`) is present and position 4 (`d`) is not in word; both `e` are exact matches. -/
theorem sheep_speed_record (lists : WordLists) (g : game) (hg : g.word = bytes "sheep")
    (hn : g.guesses.length < 6) (hv : valid lists (bytes "speed") = true) :
    ∃ g1, guess lists g (bytes "speed") = some (g1, true) ∧
      g1.guesses = g.guesses ++ [speedRecord] ∧
      speedRecord[2]? = some ⟨bytes "e", letterState.foundPosition⟩ ∧
      speedRecord[3]? = some ⟨bytes "e", letterState.foundPosition⟩ := by
  have hstep := guess_lower lists g (bytes "speed") (by rw [hg]; decide) (by decide)
    (by rw [hg]; decide) (by omega) hv
  have hrec : scoreRef g.word (bytes "speed") = speedRecord := by rw [hg]; decide
  rw [hrec] at hstep
  exact ⟨_, hstep, rfl, by decide, by decide⟩

/-- The amended statement of C14 at a fresh session with the target "sheep". -/
theorem sheep_speed_record_witness :
    ∃ g1, guess sheepLists sheepGame (bytes "speed") = some (g1, true) ∧
      g1.guesses = sheepGame.guesses ++ [speedRecord] ∧
      speedRecord[2]? = some ⟨bytes "e", letterState.foundPosition⟩ ∧
      speedRecord[3]? = some ⟨bytes "e", letterState.foundPosition⟩ :=
  sheep_speed_record sheepLists sheepGame (by decide) (by decide) (by decide)

/-- C14, as stated, fails: with the target "sheep" and the guess "speed", position 3 of
the appended record is an exact match (the target has `e` at position 3 too), not a
letter that is not in word. -/
theorem sheep_speed_position_three_exact :
    (guess sheepLists sheepGame (bytes "speed")).map (fun r =>
      (r.2, r.1.guesses.map (fun record => (record[2]?, record[3]?))))
    = some (true, [(some ⟨bytes "e", letterState.foundPosition⟩,
        some ⟨bytes "e", letterState.foundPosition⟩)]) := by
  decide

/-- C15, as the code has it: with the target "abide" and the accepted guess "daddy",
position 0 of the appended record is the letter `d`, not in word, and position 1 is the
letter `a`, present; one `d` (the exact match at position 3) and one `a` are marked
exact or present, as many as the target has of each. -/
theorem abide_daddy_record (lists : WordLists) (g : game) (hg : g.word = bytes "abide")
    (hn : g.guesses.length < 6) (hv : valid lists (bytes "daddy") = true) :
    ∃ g1, guess lists g (bytes "daddy") = some (g1, true) ∧
      g1.guesses = g.guesses ++ [daddyRecord] ∧
      daddyRecord[0]? = some ⟨bytes "d", letterState.notInWord⟩ ∧
      daddyRecord[1]? = some ⟨bytes "a", letterState.found⟩ ∧
      daddyRecord[3]? = some ⟨bytes "d", letterState.foundPosition⟩ ∧
      hits daddyRecord 100 = 1 ∧ g.word.count 100 = 1 ∧
      hits daddyRecord 97 = 1 ∧ g.word.count 97 = 1 := by
  have hstep := guess_lower lists g (bytes "daddy") (by rw [hg]; decide) (by decide)
    (by rw [hg]; decide) (by omega) hv
  have hrec : scoreRef g.word (bytes "daddy") = daddyRecord := by rw [hg]; decide
  rw [hrec] at hstep
  refine ⟨_, hstep, rfl, by decide, by decide, by decide, by decide, ?_, by decide, ?_⟩
  · rw [hg]; decide
  · rw [hg]; decide

/-- The amended statement of C15 at a fresh session with the target "abide". -/
theorem abide_daddy_record_witness :
    ∃ g1, guess demoLists abideGame (bytes "daddy") = some (g1, true) ∧
      g1.guesses = abideGame.guesses ++ [daddyRecord] ∧
      daddyRecord[0]? = some ⟨bytes "d", letterState.notInWord⟩ ∧
      daddyRecord[1]? = some ⟨bytes "a", letterState.found⟩ ∧
      daddyRecord[3]? = some ⟨bytes "d", letterState.foundPosition⟩ ∧
      hits daddyRecord 100 = 1 ∧ abideGame.word.count 100 = 1 ∧
      hits daddyRecord 97 = 1 ∧ abideGame.word.count 97 = 1 :=
  abide_daddy_record demoLists abideGame (by decide) (by decide) (by decide)

/-- C15, as stated, fails: with the target "abide" and the guess "daddy", position 0 of
the appended record is the letter `d` scored not in word; the letter `a` is at
position 1. -/
theorem abide_daddy_position_zero :
    (guess demoLists abideGame (bytes "daddy")).map (fun r =>
      (r.2, r.1.guesses.map (fun record => record[0]?)))
    = some (true, [some ⟨bytes "d", letterState.notInWord⟩]) := by
  decide

/-! ## Scoring does not depend on the session -/

theorem raiseState_eq_none (states : Fin 26 → letterState) (b : Nat) (ls : letterState)
    (h : ¬ letterIndex b < 26) : raiseState states b ls = none := by
  simp [raiseState, h]

theorem raiseState_eq_some (states : Fin 26 → letterState) (b : Nat) (ls : letterState)
    (h : letterIndex b < 26) : ∃ t, raiseState states b ls = some t := by
  unfold raiseState
  simp only [h, dite_true]
  split
  · exact ⟨_, rfl⟩
  · exact ⟨_, rfl⟩

theorem firstPass_core (word : List Nat) (bs : List Nat) :
    ∀ (index : Nat) (ng : List guessLetter) (m : CountMap) (st1 st2 : Fin 26 → letterState),
      (firstPass word index bs ⟨ng, m, st1⟩).map Scratch.core =
        (firstPass word index bs ⟨ng, m, st2⟩).map Scratch.core := by
  induction bs with
  | nil => intro index ng m st1 st2; rfl
  | cons b rest ih =>
    intro index ng m st1 st2
    simp only [firstPass]
    cases hw : word[index]? with
    | none => rfl
    | some wb =>
      simp only
      by_cases hi : letterIndex b < 26
      · by_cases e : wb = b
        · obtain ⟨t1, h1⟩ := raiseState_eq_some st1 b letterState.foundPosition hi
          obtain ⟨t2, h2⟩ := raiseState_eq_some st2 b letterState.foundPosition hi
          simp only [e, if_true, h1, h2]
          exact ih _ _ _ t1 t2
        · obtain ⟨t1, h1⟩ := raiseState_eq_some st1 b letterState.notGuessed hi
          obtain ⟨t2, h2⟩ := raiseState_eq_some st2 b letterState.notGuessed hi
          simp only [e, if_false, h1, h2]
          exact ih _ _ _ t1 t2
      · by_cases e : wb = b
        · simp only [e, if_true, raiseState_eq_none _ b _ hi]
        · simp only [e, if_false, raiseState_eq_none _ b _ hi]

theorem secondPass_core (word : List Nat) (bs : List Nat) :
    ∀ (index : Nat) (ng : List guessLetter) (m : CountMap) (st1 st2 : Fin 26 → letterState),
      (secondPass word index bs ⟨ng, m, st1⟩).map Scratch.core =
        (secondPass word index bs ⟨ng, m, st2⟩).map Scratch.core := by
  induction bs with
  | nil => intro index ng m st1 st2; rfl
  | cons b rest ih =>
    intro index ng m st1 st2
    simp only [secondPass]
    cases hw : ng[index]? with
    | none => rfl
    | some cur =>
      dsimp only
      by_cases hf : cur.letter.length ≠ 0
      · rw [if_pos hf, if_pos hf]
        exact ih _ _ _ st1 st2
      · rw [if_neg hf, if_neg hf]
        by_cases hi : letterIndex b < 26
        · by_cases hz : m.get b = 0
          · obtain ⟨t1, h1⟩ := raiseState_eq_some st1 b letterState.notInWord hi
            obtain ⟨t2, h2⟩ := raiseState_eq_some st2 b letterState.notInWord hi
            simp only [hz, if_true, h1, h2]
            exact ih _ _ _ t1 t2
          · by_cases hc : contains word (stringOfByte b) = true
            · obtain ⟨t1, h1⟩ := raiseState_eq_some st1 b letterState.found hi
              obtain ⟨t2, h2⟩ := raiseState_eq_some st2 b letterState.found hi
              simp only [hz, if_false, hc, if_true, h1, h2]
              exact ih _ _ _ t1 t2
            · obtain ⟨t1, h1⟩ := raiseState_eq_some st1 b letterState.notInWord hi
              obtain ⟨t2, h2⟩ := raiseState_eq_some st2 b letterState.notInWord hi
              simp only [hz, if_false, hc, Bool.false_eq_true, h1, h2]
              exact ih _ _ _ t1 t2
        · by_cases hz : m.get b = 0
          · simp only [hz, if_true, raiseState_eq_none _ b _ hi]
          · by_cases hc : contains word (stringOfByte b) = true
            · simp only [hz, if_false, hc, if_true, raiseState_eq_none _ b _ hi]
            · simp only [hz, if_false, hc, Bool.false_eq_true, raiseState_eq_none _ b _ hi]

theorem guess_true_passes (lists : WordLists) (g : game) (w : List Nat) (g1 : game)
    (h : guess lists g w = some (g1, true)) :
    ∃ s1 s2, firstPass g.word 0 w
        ⟨List.replicate w.length ⟨[], letterState.notGuessed⟩,
          countLetters (rangeRunes 0 g.word) (fun _ => none), g.letterStates⟩ = some s1 ∧
      secondPass g.word 0 w s1 = some s2 ∧
      g1.guesses = g.guesses ++ [s2.newGuess] ∧ g1.letterStates = s2.letterStates := by
  unfold guess at h
  by_cases h6 : g.guesses.length = 6
  · simp [h6] at h
  · by_cases hv : valid lists w = false
    · simp [h6, hv] at h
    · have hv1 : valid lists w = true := by simpa using hv
      simp only [h6, if_false, hv1, Bool.true_eq_false] at h
      cases h1 : firstPass g.word 0 w
          ⟨List.replicate w.length ⟨[], letterState.notGuessed⟩,
            countLetters (rangeRunes 0 g.word) (fun _ => none), g.letterStates⟩ with
      | none => simp [h1] at h
      | some s1 =>
        cases h2 : secondPass g.word 0 w s1 with
        | none => simp [h1, h2] at h
        | some s2 =>
          simp only [h1, h2] at h
          refine ⟨s1, s2, rfl, h2, ?_, ?_⟩
          · by_cases e : w = g.word
            · simp only [e, if_true, Option.some.injEq, Prod.mk.injEq] at h
              rw [← h.1]
            · simp only [e, if_false, Option.some.injEq, Prod.mk.injEq] at h
              rw [← h.1]
          · by_cases e : w = g.word
            · simp only [e, if_true, Option.some.injEq, Prod.mk.injEq] at h
              rw [← h.1]
            · simp only [e, if_false, Option.some.injEq, Prod.mk.injEq] at h
              rw [← h.1]

theorem guess_record_eq_score (lists : WordLists) (g : game) (w : List Nat) (g1 : game)
    (h : guess lists g w = some (g1, true)) :
    ∃ record, score g.word w = some record ∧ g1.guesses = g.guesses ++ [record] := by
  obtain ⟨s1, s2, h1, h2, hg, _⟩ := guess_true_passes lists g w g1 h
  have c1 := firstPass_core g.word w 0 (List.replicate w.length ⟨[], letterState.notGuessed⟩)
    (countLetters (rangeRunes 0 g.word) (fun _ => none)) g.letterStates
    (fun _ => letterState.notGuessed)
  rw [h1] at c1
  cases k1 : firstPass g.word 0 w
      ⟨List.replicate w.length ⟨[], letterState.notGuessed⟩,
        countLetters (rangeRunes 0 g.word) (fun _ => none),
        fun _ => letterState.notGuessed⟩ with
  | none => simp [k1] at c1
  | some t1 =>
    rw [k1] at c1
    simp only [Option.map_some', Option.some.injEq, Scratch.core, Prod.mk.injEq] at c1
    obtain ⟨ng1, m1, st1⟩ := s1
    obtain ⟨ng2, m2, st2⟩ := t1
    simp only at c1
    obtain ⟨e1, e2⟩ := c1
    subst e1
    subst e2
    have c2 := secondPass_core g.word w 0 ng1 m1 st1 st2
    rw [h2] at c2
    cases k2 : secondPass g.word 0 w ⟨ng1, m1, st2⟩ with
    | none => simp [k2] at c2
    | some t2 =>
      rw [k2] at c2
      simp only [Option.map_some', Option.some.injEq, Scratch.core, Prod.mk.injEq] at c2
      refine ⟨t2.newGuess, ?_, ?_⟩
      · simp only [score, k1, k2]
      · rw [hg, c2.1]

/-- C16: when two sessions with the same target both accept the same word, whatever
their histories, letter tables, flags and word tables, the two calls of `guess` append
the same record, the one that `score` computes from the target and the word alone. -/
theorem same_target_same_record (listsA listsB : WordLists) (gA gB : game) (w : List Nat)
    (gA1 gB1 : game) (hword : gA.word = gB.word)
    (hA : guess listsA gA w = some (gA1, true)) (hB : guess listsB gB w = some (gB1, true)) :
    ∃ record, score gA.word w = some record ∧
      gA1.guesses = gA.guesses ++ [record] ∧ gB1.guesses = gB.guesses ++ [record] := by
  obtain ⟨rA, hsA, hgA⟩ := guess_record_eq_score listsA gA w gA1 hA
  obtain ⟨rB, hsB, hgB⟩ := guess_record_eq_score listsB gB w gB1 hB
  rw [← hword, hsA] at hsB
  have e : rA = rB := Option.some.inj hsB
  subst e
  exact ⟨rA, hsA, hgA, hgB⟩

/-- The statement of C16 at the target "abide" and the guess "daddy", submitted to a
fresh session and to a session that already holds one record. -/
theorem same_target_same_record_witness :
    ∃ record, score abideGame.word (bytes "daddy") = some record ∧
      daddyGame.guesses = abideGame.guesses ++ [record] ∧
      daddyTwice.guesses = daddyGame.guesses ++ [record] :=
  same_target_same_record demoLists demoLists abideGame daddyGame (bytes "daddy")
    daddyGame daddyTwice (by decide)
    (guess_eq_of_view _ _ _ (by decide)) (guess_eq_of_view _ _ _ (by decide))

/-! ## The budget of a letter -/

theorem hits_refScan_eq (pairs : List (Nat × Nat)) :
    ∀ (budget : Nat → Nat) (c : Nat),
      hits (refScan pairs budget) c = exactMatches pairs c + min (misses pairs c) (budget c) := by
  induction pairs with
  | nil => intro budget c; simp [refScan, hits, exactMatches, misses]
  | cons p ps ih =>
    intro budget c
    obtain ⟨t, b⟩ := p
    by_cases e : t = b
    · have h := ih budget c
      simp only [hits, exactMatches, misses] at h
      by_cases ec : b = c
      · simp [refScan, hits, exactMatches, misses, e, ec, List.countP_cons] at h ⊢; omega
      · simp [refScan, hits, exactMatches, misses, e, ec, List.countP_cons] at h ⊢; omega
    · by_cases hpos : 0 < budget b
      · have h := ih (fun x => if x = b then budget x - 1 else budget x) c
        simp only [hits, exactMatches, misses] at h
        by_cases ec : b = c
        · subst ec
          simp [refScan, hits, exactMatches, misses, e, hpos, List.countP_cons] at h ⊢; omega
        · have ec2 : ¬ (c = b) := fun x => ec x.symm
          simp [refScan, hits, exactMatches, misses, e, hpos, ec, ec2, List.countP_cons] at h ⊢
          omega
      · have h := ih budget c
        simp only [hits, exactMatches, misses] at h
        have hz : budget b = 0 := by omega
        by_cases ec : b = c
        · subst ec
          simp [refScan, hits, exactMatches, misses, e, hz, List.countP_cons] at h ⊢; omega
        · simp [refScan, hits, exactMatches, misses, e, hz, ec, List.countP_cons] at h ⊢; omega

theorem exactMatches_add_misses (pairs : List (Nat × Nat)) (c : Nat) :
    exactMatches pairs c + misses pairs c = (pairs.map Prod.snd).count c := by
  induction pairs with
  | nil => simp [exactMatches, misses]
  | cons p ps ih =>
    obtain ⟨t, b⟩ := p
    simp only [exactMatches, misses] at ih
    by_cases e : t = b
    · by_cases ec : b = c
      · subst ec
        simp [exactMatches, misses, e, List.countP_cons, List.count_cons] at ih ⊢; omega
      · simp [exactMatches, misses, e, ec, List.countP_cons, List.count_cons] at ih ⊢; omega
    · by_cases ec : b = c
      · subst ec
        simp [exactMatches, misses, e, List.countP_cons, List.count_cons] at ih ⊢; omega
      · simp [exactMatches, misses, e, ec, List.countP_cons, List.count_cons] at ih ⊢; omega

theorem hits_scoreRef_eq_min (target word : List Nat) (c : Nat)
    (hlen : word.length ≤ target.length) :
    hits (scoreRef target word) c = min (word.count c) (target.count c) := by
  have h1 := hits_refScan_eq (target.zip word) (startBudget target word) c
  have h2 := exactMatches_le_count target word c
  have h3 : startBudget target word c = target.count c - exactMatches (target.zip word) c := rfl
  have h4 := exactMatches_add_misses (target.zip word) c
  rw [List.map_snd_zip target word hlen] at h4
  unfold scoreRef
  omega

theorem firstPass_append (word : List Nat) (pre suf : List Nat) :
    ∀ (index : Nat) (s : Scratch),
      firstPass word index (pre ++ suf) s =
        (firstPass word index pre s).bind (fun s1 => firstPass word (index + pre.length) suf s1) := by
  induction pre with
  | nil => intro index s; simp [firstPass]
  | cons b rest ih =>
    intro index s
    simp only [List.cons_append, firstPass, List.length_cons]
    cases word[index]? with
    | none => rfl
    | some wb =>
      dsimp only
      cases raiseState (if wb = b then
          { s with
            newGuess := s.newGuess.set index ⟨stringOfByte b, letterState.foundPosition⟩
            letterCounts := s.letterCounts.put b (s.letterCounts.get b - 1) }
        else s).letterStates b
          (if wb = b then letterState.foundPosition else letterState.notGuessed) with
      | none => rfl
      | some states =>
        dsimp only
        have e : index + 1 + rest.length = index + (rest.length + 1) := by omega
        rw [List.append_eq, ih, e]

theorem secondPass_append (word : List Nat) (pre suf : List Nat) :
    ∀ (index : Nat) (s : Scratch),
      secondPass word index (pre ++ suf) s =
        (secondPass word index pre s).bind
          (fun s1 => secondPass word (index + pre.length) suf s1) := by
  induction pre with
  | nil => intro index s; simp [secondPass]
  | cons b rest ih =>
    intro index s
    have e : index + 1 + rest.length = index + (rest.length + 1) := by omega
    simp only [List.cons_append, secondPass, List.length_cons]
    cases s.newGuess[index]? with
    | none => rfl
    | some cur =>
      dsimp only
      by_cases hf : cur.letter.length ≠ 0
      · rw [if_pos hf, if_pos hf, List.append_eq, ih, e]
      · rw [if_neg hf, if_neg hf]
        cases raiseState (if s.letterCounts.get b = 0 then
            { s with newGuess := s.newGuess.set index ⟨stringOfByte b, letterState.notInWord⟩ }
          else if contains word (stringOfByte b) = true then
            { s with
              newGuess := s.newGuess.set index ⟨stringOfByte b, letterState.found⟩
              letterCounts := s.letterCounts.put b (s.letterCounts.get b - 1) }
          else
            { s with newGuess := s.newGuess.set index ⟨stringOfByte b, letterState.notInWord⟩ }
          ).letterStates b
            (if s.letterCounts.get b = 0 then letterState.notInWord
              else if contains word (stringOfByte b) = true then letterState.found
              else letterState.notInWord) with
        | none => rfl
        | some states =>
          dsimp only
          rw [List.append_eq, ih, e]

theorem firstPass_counts (word : List Nat) (bs : List Nat) :
    ∀ (index : Nat) (s s1 : Scratch), firstPass word index bs s = some s1 →
      ∀ c, s1.letterCounts.get c =
        s.letterCounts.get c - (exactMatches ((word.drop index).zip bs) c : Int) := by
  induction bs with
  | nil =>
    intro index s s1 h c
    simp only [firstPass, Option.some.injEq] at h
    rw [← h]
    simp [exactMatches]
  | cons b rest ih =>
    intro index s s1 h c
    simp only [firstPass] at h
    cases hw : word[index]? with
    | none => simp [hw] at h
    | some wb =>
      have hdrop : word.drop index = wb :: word.drop (index + 1) := by
        obtain ⟨hn, rfl⟩ := List.getElem?_eq_some.1 hw
        exact List.drop_eq_getElem_cons hn
      rw [hw] at h
      dsimp only at h
      by_cases e : wb = b
      · subst e
        simp only [if_true] at h
        cases hr : raiseState s.letterStates wb letterState.foundPosition with
        | none => simp [hr] at h
        | some states =>
          simp only [hr] at h
          have := ih _ _ _ h c
          rw [this, hdrop]
          simp only [CountMap.get_put, List.zip_cons_cons, exactMatches, List.countP_cons]
          by_cases hc : c = wb
          · subst hc; simp; ring
          · have hc2 : ¬ (wb = c) := fun x => hc x.symm
            simp [hc, hc2]
      · simp only [e, if_false] at h
        cases hr : raiseState s.letterStates b letterState.notGuessed with
        | none => simp [hr] at h
        | some states =>
          simp only [hr] at h
          have := ih _ _ _ h c
          rw [this, hdrop]
          simp [List.zip_cons_cons, exactMatches, List.countP_cons, e]

theorem secondPass_sound (word : List Nat) (bs : List Nat) :
    ∀ (index : Nat) (s s1 : Scratch), budgetSound word s.letterCounts →
      secondPass word index bs s = some s1 → budgetSound word s1.letterCounts := by
  induction bs with
  | nil =>
    intro index s s1 hs h
    simp only [secondPass, Option.some.injEq] at h
    rw [← h]
    exact hs
  | cons b rest ih =>
    intro index s s1 hs h
    simp only [secondPass] at h
    cases hw : s.newGuess[index]? with
    | none => simp [hw] at h
    | some cur =>
      rw [hw] at h
      dsimp only at h
      by_cases hf : cur.letter.length ≠ 0
      · rw [if_pos hf] at h
        exact ih _ _ _ hs h
      · rw [if_neg hf] at h
        by_cases hz : s.letterCounts.get b = 0
        · simp only [hz, if_true] at h
          cases hr : raiseState s.letterStates b letterState.notInWord with
          | none => simp [hr] at h
          | some states =>
            simp only [hr] at h
            refine ih _ _ _ ?_ h
            exact hs
        · by_cases hc : contains word (stringOfByte b) = true
          · simp only [hz, if_false, hc, if_true] at h
            cases hr : raiseState s.letterStates b letterState.found with
            | none => simp [hr] at h
            | some states =>
              simp only [hr] at h
              refine ih _ _ _ ?_ h
              intro c
              simp only [CountMap.get_put]
              by_cases e : c = b
              · subst e
                simp only [if_true]
                have := (hs c).1
                exact ⟨by omega, fun _ => hc⟩
              · simp only [e, if_false]
                exact hs c
          · simp only [hz, if_false, hc, Bool.false_eq_true] at h
            cases hr : raiseState s.letterStates b letterState.notInWord with
            | none => simp [hr] at h
            | some states =>
              simp only [hr] at h
              refine ih _ _ _ ?_ h
              exact hs

theorem startScratch_get (g : game) (word : List Nat) (c : Nat)
    (ht : isLower g.word = true) :
    (startScratch g word).letterCounts.get c = (g.word.count c : Int) := by
  have hascii : ∀ b ∈ g.word, b < 128 := by
    intro b hb
    have := (isLower_iff g.word).1 ht b hb
    omega
  have h256 : ∀ b ∈ g.word, b < 256 := fun b hb => by have := hascii b hb; omega
  simp only [startScratch]
  rw [rangeRunes_ascii g.word hascii, countLetters_get g.word _ c h256]
  simp [CountMap.get]

theorem count_pos_contains (target : List Nat) (c : Nat) (ht : isLower target = true)
    (h : 0 < target.count c) : contains target (stringOfByte c) = true := by
  have hmem : c ∈ target := List.count_pos_iff.1 h
  have hc := (isLower_iff target).1 ht c hmem
  rw [stringOfByte_lower c hc.2]
  exact (contains_single target c).2 hmem

/-- C18: for a lowercase target and an accepted lowercase word no longer than the target,
`guess` returns true and, for every letter `c`, the appended record holds `c` as an exact
match or as present at exactly min(count of `c` in the word, count of `c` in the target)
positions. At the head of every iteration of the first loop (the run over a leading
segment `pre` of the word) no count is negative; at the head of every iteration of the
second loop no count is negative and a byte whose count is not 0 is contained in the
target (`budgetSound`), so the final `else` of the second loop is never entered. -/
theorem hits_eq_min_and_budget_sound (lists : WordLists) (g : game) (word : List Nat)
    (ht : isLower g.word = true) (hw : isLower word = true)
    (hlen : word.length ≤ g.word.length) (hn : g.guesses.length < 6)
    (hv : valid lists word = true) :
    ∃ g1 record s1,
      guess lists g word = some (g1, true) ∧ g1.guesses = g.guesses ++ [record] ∧
      (∀ c, hits record c = min (word.count c) (g.word.count c)) ∧
      firstPass g.word 0 word (startScratch g word) = some s1 ∧
      (∀ pre suf, word = pre ++ suf →
        ∃ s, firstPass g.word 0 pre (startScratch g word) = some s ∧
          ∀ c, 0 ≤ s.letterCounts.get c) ∧
      (∀ pre suf, word = pre ++ suf →
        ∃ s, secondPass g.word 0 pre s1 = some s ∧ budgetSound g.word s.letterCounts) := by
  have hstep := guess_lower lists g word ht hw hlen (by omega) hv
  obtain ⟨s1, s2, h1, h2, _, _⟩ := guess_true_passes lists g word _ hstep
  have h1s : firstPass g.word 0 word (startScratch g word) = some s1 := h1
  have hsound1 : budgetSound g.word s1.letterCounts := by
    intro c
    have hc := firstPass_counts g.word word 0 _ s1 h1s c
    rw [startScratch_get g word c ht, List.drop_zero] at hc
    have hle := exactMatches_le_count g.word word c
    constructor
    · omega
    · intro hne
      exact count_pos_contains g.word c ht (by omega)
  refine ⟨_, scoreRef g.word word, s1, hstep, rfl,
    fun c => hits_scoreRef_eq_min g.word word c hlen, h1s, ?_, ?_⟩
  · intro pre suf hsplit
    subst hsplit
    rw [firstPass_append] at h1s
    obtain ⟨s, hs, _⟩ := Option.bind_eq_some.1 h1s
    refine ⟨s, hs, ?_⟩
    intro c
    have hc := firstPass_counts g.word pre 0 _ s hs c
    have hget : (startScratch g (pre ++ suf)).letterCounts.get c = (g.word.count c : Int) :=
      startScratch_get g (pre ++ suf) c ht
    rw [hget, List.drop_zero] at hc
    have hle := exactMatches_le_count g.word pre c
    omega
  · intro pre suf hsplit
    subst hsplit
    rw [secondPass_append] at h2
    obtain ⟨s, hs, _⟩ := Option.bind_eq_some.1 h2
    exact ⟨s, hs, secondPass_sound g.word pre 0 s1 s hsound1 hs⟩

/-- The statement of C18 at the target "abide" and the guess "daddy". -/
theorem hits_eq_min_and_budget_sound_witness :
    ∃ g1 record s1,
      guess demoLists abideGame (bytes "daddy") = some (g1, true) ∧
      g1.guesses = abideGame.guesses ++ [record] ∧
      (∀ c, hits record c = min ((bytes "daddy").count c) (abideGame.word.count c)) ∧
      firstPass abideGame.word 0 (bytes "daddy") (startScratch abideGame (bytes "daddy"))
        = some s1 ∧
      (∀ pre suf, bytes "daddy" = pre ++ suf →
        ∃ s, firstPass abideGame.word 0 pre (startScratch abideGame (bytes "daddy")) = some s ∧
          ∀ c, 0 ≤ s.letterCounts.get c) ∧
      (∀ pre suf, bytes "daddy" = pre ++ suf →
        ∃ s, secondPass abideGame.word 0 pre s1 = some s ∧
          budgetSound abideGame.word s.letterCounts) :=
  hits_eq_min_and_budget_sound demoLists abideGame (bytes "daddy")
    (by decide) (by decide) (by decide) (by decide) (by decide)

/-! ## The letter table as an aggregate of the history -/

theorem letterState.val_inj (a b : letterState) (h : a.val = b.val) : a = b := by
  cases a <;> cases b <;> simp [letterState.val] at h ⊢

theorem aggregate_val (entries : List guessLetter) (c : Nat) :
    (aggregate entries c).val = bestVal entries c := by
  induction entries with
  | nil => rfl
  | cons e es ih =>
    obtain ⟨l, st⟩ := e
    unfold aggregate at ih ⊢
    simp only [List.any_cons, bestVal]
    by_cases h1 : es.any (fun e => decide (e.letter = [c]) &&
        decide (e.state = letterState.notInWord)) = true <;>
      by_cases h2 : es.any (fun e => decide (e.letter = [c]) &&
        decide (e.state = letterState.foundPosition)) = true <;>
      by_cases h3 : es.any (fun e => decide (e.letter = [c]) &&
        decide (e.state = letterState.found)) = true <;>
      by_cases hl : l = [c] <;>
      cases st <;>
      simp only [hl, h1, h2, h3, letterState.val, if_true, if_false, decide_True, decide_False,
        Bool.true_and, Bool.false_and, Bool.true_or, Bool.false_or, Bool.or_true, Bool.or_false,
        Bool.false_eq_true, reduceCtorEq] at ih ⊢ <;>
      omega

theorem bestVal_append (xs ys : List guessLetter) (c : Nat) :
    bestVal (xs ++ ys) c = max (bestVal xs c) (bestVal ys c) := by
  induction xs with
  | nil => simp [bestVal]
  | cons e es ih =>
    show bestVal (e :: (es ++ ys)) c = _
    simp only [bestVal]
    rw [ih]
    split <;> omega

theorem bestVal_eq_zero (es : List guessLetter) (c : Nat) (h : ∀ e ∈ es, e.letter ≠ [c]) :
    bestVal es c = 0 := by
  induction es with
  | nil => rfl
  | cons e rest ih =>
    have he : e.letter ≠ [c] := h e (by simp)
    simp only [bestVal, he, if_false]
    exact ih (fun x hx => h x (by simp [hx]))

theorem raiseLower_val (states : Fin 26 → letterState) (b : Nat) (ls : letterState)
    (i : Fin 26) (h1 : 97 ≤ b) (h2 : b ≤ 122) :
    (raiseLower states b ls i).val =
      if b = 97 + i.val then max (states i).val ls.val else (states i).val := by
  have hi := i.isLt
  have hidx : i.val = letterIndex b ↔ b = 97 + i.val := by
    unfold letterIndex
    omega
  simp only [raiseLower]
  by_cases hb : b = 97 + i.val
  · have hb2 : i.val = letterIndex b := hidx.2 hb
    by_cases hgt : ls.val > (states i).val
    · rw [if_pos ⟨hb2, hgt⟩, if_pos hb]
      omega
    · rw [if_neg (fun x => hgt x.2), if_pos hb]
      omega
  · have hb2 : ¬ (i.val = letterIndex b) := fun x => hb (hidx.1 x)
    rw [if_neg (fun x => hb2 x.1), if_neg hb]

theorem statesAfterFirst_val (pairs : List (Nat × Nat)) :
    ∀ (states : Fin 26 → letterState) (i : Fin 26),
      (∀ p ∈ pairs, 97 ≤ p.2 ∧ p.2 ≤ 122) →
      (statesAfterFirst states pairs i).val =
        max (states i).val (firstVal pairs (97 + i.val)) := by
  induction pairs with
  | nil => intro states i _; simp [statesAfterFirst, firstVal]
  | cons p ps ih =>
    intro states i hlow
    obtain ⟨t, b⟩ := p
    have hb := hlow (t, b) (by simp)
    simp only [statesAfterFirst, firstVal]
    rw [ih _ i (fun q hq => hlow q (by simp [hq])), raiseLower_val _ b _ i hb.1 hb.2]
    by_cases e : t = b
    · subst e
      by_cases ec : t = 97 + i.val
      · simp only [ec, if_true, and_self, letterState.val]
        omega
      · simp only [ec, if_true, if_false, and_false]
        omega
    · by_cases ec : b = 97 + i.val
      · subst ec
        simp only [e, if_true, if_false, false_and, letterState.val]
        omega
      · simp only [e, ec, if_false, false_and]
        omega

theorem statesAfterSecond_val (es : List (Nat × letterState)) :
    ∀ (states : Fin 26 → letterState) (i : Fin 26),
      (∀ p ∈ es, 97 ≤ p.1 ∧ p.1 ≤ 122) →
      (statesAfterSecond states es i).val =
        max (states i).val (secondVal es (97 + i.val)) := by
  induction es with
  | nil => intro states i _; simp [statesAfterSecond, secondVal]
  | cons p ps ih =>
    intro states i hlow
    obtain ⟨b, ls⟩ := p
    have hb := hlow (b, ls) (by simp)
    have hrest : ∀ q ∈ ps, 97 ≤ q.1 ∧ q.1 ≤ 122 := fun q hq => hlow q (by simp [hq])
    simp only [statesAfterSecond, secondVal]
    by_cases e : ls = letterState.foundPosition
    · rw [if_pos e, ih _ i hrest]
      simp only [e, ne_eq, not_true_eq_false, false_and, if_false]
      omega
    · rw [if_neg e, ih _ i hrest, raiseLower_val _ b _ i hb.1 hb.2]
      by_cases ec : b = 97 + i.val
      · simp only [e, ec, ne_eq, not_false_eq_true, and_self, if_true]
        omega
      · simp only [e, ec, ne_eq, not_false_eq_true, and_false, if_false]
        omega

theorem vals_refScan (pairs : List (Nat × Nat)) :
    ∀ (budget : Nat → Nat) (c : Nat),
      max (firstVal pairs c)
          (secondVal ((pairs.map Prod.snd).zip (outcomes (refScan pairs budget))) c) =
        bestVal (refScan pairs budget) c := by
  induction pairs with
  | nil => intro budget c; rfl
  | cons p ps ih =>
    intro budget c
    obtain ⟨t, b⟩ := p
    have hl : ([b] = [c]) ↔ b = c := by simp
    by_cases e : t = b
    · subst e
      have h := ih budget c
      simp only [outcomes] at h
      by_cases ec : t = c
      · subst ec
        simp only [refScan, if_true, firstVal, List.map_cons, outcomes, List.zip_cons_cons,
          secondVal, bestVal, and_self, ne_eq, not_true_eq_false, false_and, if_false,
          letterState.val] at h ⊢
        omega
      · simp only [refScan, if_true, firstVal, List.map_cons, outcomes, List.zip_cons_cons,
          secondVal, bestVal, ec, and_false, ne_eq, not_true_eq_false, false_and, if_false,
          hl] at h ⊢
        omega
    · by_cases hpos : 0 < budget b
      · have h := ih (fun x => if x = b then budget x - 1 else budget x) c
        simp only [outcomes] at h
        by_cases ec : b = c
        · subst ec
          simp only [refScan, e, hpos, if_true, if_false, firstVal, List.map_cons, outcomes,
            List.zip_cons_cons, secondVal, bestVal, false_and, ne_eq, reduceCtorEq,
            not_false_eq_true, and_self, letterState.val] at h ⊢
          omega
        · simp only [refScan, e, hpos, if_true, if_false, firstVal, List.map_cons, outcomes,
            List.zip_cons_cons, secondVal, bestVal, ec, false_and, ne_eq, reduceCtorEq,
            not_false_eq_true, and_false, hl] at h ⊢
          omega
      · have h := ih budget c
        simp only [outcomes] at h
        by_cases ec : b = c
        · subst ec
          simp only [refScan, e, hpos, if_false, firstVal, List.map_cons, outcomes,
            List.zip_cons_cons, secondVal, bestVal, false_and, ne_eq, reduceCtorEq,
            not_false_eq_true, and_self, if_true, letterState.val] at h ⊢
          omega
        · simp only [refScan, e, hpos, if_false, firstVal, List.map_cons, outcomes,
            List.zip_cons_cons, secondVal, bestVal, ec, false_and, ne_eq, reduceCtorEq,
            not_false_eq_true, and_false, hl] at h ⊢
          omega

theorem statesAfterGuess_val (states : Fin 26 → letterState) (target word : List Nat)
    (i : Fin 26) (hw : isLower word = true) (hlen : word.length ≤ target.length) :
    (statesAfterGuess states target word i).val =
      max (states i).val (bestVal (scoreRef target word) (97 + i.val)) := by
  have hlow := (isLower_iff word).1 hw
  have h1 : ∀ p ∈ target.zip word, 97 ≤ p.2 ∧ p.2 ≤ 122 := by
    intro p hp
    obtain ⟨a, b⟩ := p
    exact hlow b (List.of_mem_zip hp).2
  have h2 : ∀ p ∈ word.zip (outcomes (scoreRef target word)), 97 ≤ p.1 ∧ p.1 ≤ 122 := by
    intro p hp
    obtain ⟨a, b⟩ := p
    exact hlow a (List.of_mem_zip hp).1
  have h3 := vals_refScan (target.zip word) (startBudget target word) (97 + i.val)
  rw [List.map_snd_zip target word hlen] at h3
  unfold statesAfterGuess
  rw [statesAfterSecond_val _ _ i h2, statesAfterFirst_val _ _ i h1]
  unfold scoreRef
  omega

theorem valid_fit (lists : WordLists) (target w : List Nat)
    (hfit : ∀ v ∈ lists.wordsToGuess ++ lists.allWords,
      isLower v = true ∧ v.length ≤ target.length)
    (hv : valid lists w = true) : isLower w = true ∧ w.length ≤ target.length := by
  apply hfit w
  rw [List.mem_append]
  exact (valid_iff lists w).1 hv

theorem scoreRef_bestVal_zero (target w : List Nat) (c : Nat)
    (hlen : w.length ≤ target.length) (hc : c ∉ w) : bestVal (scoreRef target w) c = 0 := by
  apply bestVal_eq_zero
  intro e he hl
  have hmem : e.letter ∈ letters (scoreRef target w) := List.mem_map.2 ⟨e, he, rfl⟩
  rw [scoreRef_letters target w hlen] at hmem
  obtain ⟨b, hb, hbl⟩ := List.mem_map.1 hmem
  rw [hl] at hbl
  have : b = c := by simpa using hbl
  exact hc (this ▸ hb)

theorem guess_table_step (lists : WordLists) (target : List Nat) (g : game) (w : List Nat)
    (ht : isLower target = true) (hword : g.word = target)
    (hfit : ∀ v ∈ lists.wordsToGuess ++ lists.allWords,
      isLower v = true ∧ v.length ≤ target.length)
    (hinv : ∀ i : Fin 26, (g.letterStates i).val = bestVal g.guesses.flatten (97 + i.val)) :
    ∃ g1 r, guess lists g w = some (g1, r) ∧ g1.word = target ∧
      (∀ i : Fin 26, (g1.letterStates i).val = bestVal g1.guesses.flatten (97 + i.val)) ∧
      (∀ i : Fin 26, (97 + i.val) ∉ w → g1.letterStates i = g.letterStates i) := by
  by_cases h6 : g.guesses.length = 6
  · exact ⟨{ g with err := some outOfGuessesError, done := true }, false, by simp [guess, h6],
      hword, hinv, fun _ _ => rfl⟩
  · by_cases hv : valid lists w = false
    · exact ⟨{ g with err := some (invalidWordError w) }, false, by simp [guess, h6, hv],
        hword, hinv, fun _ _ => rfl⟩
    · have hv1 : valid lists w = true := by simpa using hv
      obtain ⟨hw, hlen⟩ := valid_fit lists target w hfit hv1
      have hlen2 : w.length ≤ g.word.length := by rw [hword]; exact hlen
      have hstep := guess_lower lists g w (by rw [hword]; exact ht) hw hlen2 h6 hv1
      refine ⟨_, true, hstep, hword, ?_, ?_⟩
      · intro i
        simp only [List.flatten_append, List.flatten_cons, List.flatten_nil, List.append_nil]
        rw [statesAfterGuess_val _ _ _ i hw hlen2, bestVal_append, hinv i]
      · intro i hi
        apply letterState.val_inj
        simp only
        rw [statesAfterGuess_val _ _ _ i hw hlen2,
          scoreRef_bestVal_zero g.word w (97 + i.val) hlen2 hi]
        omega

theorem guessAll_table (lists : WordLists) (target : List Nat)
    (ht : isLower target = true)
    (hfit : ∀ v ∈ lists.wordsToGuess ++ lists.allWords,
      isLower v = true ∧ v.length ≤ target.length)
    (ws : List (List Nat)) :
    ∀ g : game, g.word = target →
      (∀ i : Fin 26, (g.letterStates i).val = bestVal g.guesses.flatten (97 + i.val)) →
      ∃ g1, guessAll lists g ws = some g1 ∧ g1.word = target ∧
        ∀ i : Fin 26, (g1.letterStates i).val = bestVal g1.guesses.flatten (97 + i.val) := by
  induction ws with
  | nil => intro g hword hinv; exact ⟨g, rfl, hword, hinv⟩
  | cons w rest ih =>
    intro g hword hinv
    obtain ⟨g1, r, hstep, hword1, hinv1, _⟩ := guess_table_step lists target g w ht hword hfit hinv
    obtain ⟨g2, hrun, hword2, hinv2⟩ := ih g1 hword1 hinv1
    exact ⟨g2, by simp only [guessAll, hstep]; exact hrun, hword2, hinv2⟩

/-- C19: when the target and every word of the two word tables are lowercase and no word
of the tables is longer than the target, every sequence of calls of `guess` on a fresh
session runs to a session in which the table entry of each letter is the aggregate of
the entries recorded for it in the history under the numeric order of the constants:
notInWord if some instance was scored so, otherwise foundPosition if some instance
was, otherwise found if some instance was, otherwise notGuessed. A further call of
`guess` leaves the entry of every letter that does not occur in the submitted word. -/
theorem table_is_numeric_aggregate (lists : WordLists) (target : List Nat)
    (ws : List (List Nat)) (ht : isLower target = true)
    (hfit : ∀ v ∈ lists.wordsToGuess ++ lists.allWords,
      isLower v = true ∧ v.length ≤ target.length) :
    ∃ g, guessAll lists (NewGame target) ws = some g ∧
      (∀ i : Fin 26, g.letterStates i = aggregate g.guesses.flatten (97 + i.val)) ∧
      (∀ (w : List Nat) (i : Fin 26), (97 + i.val) ∉ w →
        ∃ g1 r, guess lists g w = some (g1, r) ∧ g1.letterStates i = g.letterStates i) := by
  obtain ⟨g, hrun, hword, hinv⟩ := guessAll_table lists target ht hfit ws (NewGame target) rfl
    (by intro i; simp [NewGame, bestVal, letterState.val])
  refine ⟨g, hrun, ?_, ?_⟩
  · intro i
    apply letterState.val_inj
    rw [aggregate_val]
    exact hinv i
  · intro w i hi
    obtain ⟨g1, r, hstep, _, _, hkeep⟩ := guess_table_step lists target g w ht hword hfit hinv
    exact ⟨g1, r, hstep, hkeep i hi⟩

/-- The statement of C19 at the target "abide" and the lines "aside", "zzzzz", "daddy". -/
theorem table_is_numeric_aggregate_witness :
    ∃ g, guessAll demoLists (NewGame (bytes "abide"))
        [bytes "aside", bytes "zzzzz", bytes "daddy"] = some g ∧
      (∀ i : Fin 26, g.letterStates i = aggregate g.guesses.flatten (97 + i.val)) ∧
      (∀ (w : List Nat) (i : Fin 26), (97 + i.val) ∉ w →
        ∃ g1 r, guess demoLists g w = some (g1, r) ∧ g1.letterStates i = g.letterStates i) :=
  table_is_numeric_aggregate demoLists (bytes "abide")
    [bytes "aside", bytes "zzzzz", bytes "daddy"] (by decide) (by decide)

/-! ## Indexing -/

theorem firstPass_none_of_long (word : List Nat) (bs : List Nat) :
    ∀ (index : Nat) (s : Scratch), index ≤ word.length → word.length < index + bs.length →
      firstPass word index bs s = none := by
  induction bs with
  | nil => intro index s h1 h2; simp at h2; omega
  | cons b rest ih =>
    intro index s h1 h2
    simp only [firstPass]
    cases hw : word[index]? with
    | none => rfl
    | some wb =>
      have hlt : index < word.length := (List.getElem?_eq_some.1 hw).1
      simp only [List.length_cons] at h2
      dsimp only
      cases raiseState (if wb = b then
          { s with
            newGuess := s.newGuess.set index ⟨stringOfByte b, letterState.foundPosition⟩
            letterCounts := s.letterCounts.put b (s.letterCounts.get b - 1) }
        else s).letterStates b
          (if wb = b then letterState.foundPosition else letterState.notGuessed) with
      | none => rfl
      | some states =>
        dsimp only
        exact ih _ _ (by omega) (by omega)

theorem firstPass_none_of_bad (word : List Nat) (c : Nat) (hc : ¬ letterIndex c < 26)
    (bs : List Nat) :
    ∀ (index : Nat) (s : Scratch), c ∈ bs → firstPass word index bs s = none := by
  induction bs with
  | nil => intro index s h; simp at h
  | cons b rest ih =>
    intro index s h
    simp only [firstPass]
    cases hw : word[index]? with
    | none => rfl
    | some wb =>
      dsimp only
      by_cases e : b = c
      · subst e
        rw [raiseState_eq_none _ b _ hc]
      · have hrest : c ∈ rest := by
          rcases List.mem_cons.1 h with h | h
          · exact absurd h.symm e
          · exact h
        cases raiseState (if wb = b then
            { s with
              newGuess := s.newGuess.set index ⟨stringOfByte b, letterState.foundPosition⟩
              letterCounts := s.letterCounts.put b (s.letterCounts.get b - 1) }
          else s).letterStates b
            (if wb = b then letterState.foundPosition else letterState.notGuessed) with
        | none => rfl
        | some states =>
          dsimp only
          exact ih _ _ hrest

/-- C20: when the target and every word of the two word tables consist of exactly 5
lowercase letters, `guess` does not panic on any submitted byte string, that is, no
read of `g.word[index]` or of `letterStates[b-'a']` is out of range: a word that
passes `valid` has the length of the target and lowercase letters only. Without the
precondition the reads do go out of range: an accepted word longer than the target,
or one that holds a byte `b` with `b - 'a'` not below 26, makes `guess` panic. -/
theorem guess_indexes_in_range (lists : WordLists) (g : game) (word : List Nat)
    (ht : fiveLower g.word = true)
    (h1 : ∀ v ∈ lists.wordsToGuess, fiveLower v = true)
    (h2 : ∀ v ∈ lists.allWords, fiveLower v = true) :
    (∃ g1 r, guess lists g word = some (g1, r)) ∧
      (valid lists word = true → word.length = g.word.length ∧ isLower word = true) ∧
      (∀ (listsB : WordLists) (gB : game) (wB : List Nat), gB.guesses.length ≠ 6 →
        valid listsB wB = true → gB.word.length < wB.length → guess listsB gB wB = none) ∧
      (∀ (listsB : WordLists) (gB : game) (wB : List Nat) (b : Nat), gB.guesses.length ≠ 6 →
        valid listsB wB = true → b ∈ wB → ¬ letterIndex b < 26 →
        guess listsB gB wB = none) ∧
      (guess looseLists abideGame (bytes "daddies")).isNone = true ∧
      (guess looseLists abideGame (bytes "Daddy")).isNone = true := by
  have ht2 : g.word.length = 5 ∧ isLower g.word = true := by
    simpa [fiveLower] using ht
  have hvalid : valid lists word = true →
      word.length = g.word.length ∧ isLower word = true := by
    intro hv
    have hw : fiveLower word = true := by
      rcases (valid_iff lists word).1 hv with h | h
      · exact h1 word h
      · exact h2 word h
    have hw2 : word.length = 5 ∧ isLower word = true := by simpa [fiveLower] using hw
    exact ⟨by omega, hw2.2⟩
  refine ⟨?_, hvalid, ?_, ?_, by decide, by decide⟩
  · by_cases h6 : g.guesses.length = 6
    · exact ⟨{ g with err := some outOfGuessesError, done := true }, false,
        by simp [guess, h6]⟩
    · by_cases hv : valid lists word = false
      · exact ⟨{ g with err := some (invalidWordError word) }, false,
          by simp [guess, h6, hv]⟩
      · have hv1 : valid lists word = true := by simpa using hv
        obtain ⟨hlen, hw⟩ := hvalid hv1
        exact ⟨_, true, guess_lower lists g word ht2.2 hw (by omega) h6 hv1⟩
  · intro listsB gB wB h6 hv hlong
    unfold guess
    simp only [h6, if_false, hv, Bool.true_eq_false]
    rw [firstPass_none_of_long gB.word wB 0 _ (Nat.zero_le _) (by omega)]
  · intro listsB gB wB b h6 hv hb hbad
    unfold guess
    simp only [h6, if_false, hv, Bool.true_eq_false]
    rw [firstPass_none_of_bad gB.word b hbad wB 0 _ hb]

/-- The statement of C20 at a fresh session with the target "abide" and the submitted
line "Abide". -/
theorem guess_indexes_in_range_witness :
    (∃ g1 r, guess demoLists abideGame (bytes "Abide") = some (g1, r)) ∧
      (valid demoLists (bytes "Abide") = true →
        (bytes "Abide").length = abideGame.word.length ∧ isLower (bytes "Abide") = true) ∧
      (∀ (listsB : WordLists) (gB : game) (wB : List Nat), gB.guesses.length ≠ 6 →
        valid listsB wB = true → gB.word.length < wB.length → guess listsB gB wB = none) ∧
      (∀ (listsB : WordLists) (gB : game) (wB : List Nat) (b : Nat), gB.guesses.length ≠ 6 →
        valid listsB wB = true → b ∈ wB → ¬ letterIndex b < 26 →
        guess listsB gB wB = none) ∧
      (guess looseLists abideGame (bytes "daddies")).isNone = true ∧
      (guess looseLists abideGame (bytes "Daddy")).isNone = true :=
  guess_indexes_in_range demoLists abideGame (bytes "Abide") (by decide) (by decide) (by decide)

end Gordle
